import Mathlib

/-!
Verification of the SNI ClientHello extractor (`src/lib.rs`).

The Rust source parses a TLS ClientHello incrementally from an async byte
stream through a `Take` wrapper whose `limit` is the remaining read budget.
We embed the reader as an explicit state: the full byte sequence `data`
(bytes as `Nat`, each intended `< 256`), the current read position `pos`,
and the remaining budget `limit` of the `Take` wrapper.  Each tokio read
primitive becomes a pure function `RState → Except PErr (α × RState)`:
a read past the end of data or past the budget yields `PErr.truncated`
exactly where tokio returns an `UnexpectedEof` io error.  Rust `String`s
are modelled as their UTF-8 byte sequences (`List Nat`).
-/

/-- Failure categories mirroring the `io::Error` values the source builds:
`wrongType` for the non-ClientHello handshake type error (observed and
expected values, lines 28-35), `truncated` for every `UnexpectedEof`
(requested and available byte counts, as in the `skip` message at line 99),
and `invalidUtf8` for the `InvalidData` error wrapping the
`String::from_utf8` failure (lines 89-90). -/
inductive PErr where
  | wrongType (observed : Nat) (expected : Nat)
  | truncated (requested : Nat) (available : Nat)
  | invalidUtf8
  deriving DecidableEq, Repr

/-- The limited reader: `tokio::io::Take` over the stream.  `data` is the
whole underlying byte stream, `pos` the read position, `limit` the
remaining byte budget of the `Take` wrapper. -/
structure RState where
  data : List Nat
  pos : Nat
  limit : Nat
  deriving DecidableEq, Repr

/-- Bytes actually obtainable from the limited reader: at most `limit`,
and at most what remains of the underlying stream. -/
def RState.avail (s : RState) : Nat := min s.limit (s.data.length - s.pos)

/-- `reader.read_u8()` on the `Take` reader: one byte, or `UnexpectedEof`
when the budget or the stream is exhausted. -/
def read_u8L (s : RState) : Except PErr (Nat × RState) :=
  if s.limit = 0 then .error (.truncated 1 0)
  else
    match s.data.drop s.pos with
    | [] => .error (.truncated 1 0)
    | b :: _ => .ok (b, ⟨s.data, s.pos + 1, s.limit - 1⟩)

/-- `reader.read_u16()` on the `Take` reader: two bytes combined
big-endian; `UnexpectedEof` if fewer than two bytes are obtainable. -/
def read_u16L (s : RState) : Except PErr (Nat × RState) :=
  match read_u8L s with
  | .error e => .error e
  | .ok (b0, s1) =>
    match read_u8L s1 with
    | .error e => .error e
    | .ok (b1, s2) => .ok (b0 * 256 + b1, s2)

/-- `skip` (source lines 95-104): `io::copy(&mut reader.take(len), sink)`
reads `min len avail` bytes, and the function errors when that is `< len`,
reporting read vs requested counts. -/
def skip (s : RState) (n : Nat) : Except PErr RState :=
  if min n s.avail < n then .error (.truncated n (min n s.avail))
  else .ok ⟨s.data, s.pos + n, s.limit - n⟩

/-- `skip_vec_u8` (lines 106-109): a 1-byte length then that many bytes. -/
def skip_vec_u8 (s : RState) : Except PErr RState :=
  match read_u8L s with
  | .error e => .error e
  | .ok (sz, s1) => skip s1 sz

/-- `skip_vec_u16` (lines 111-114): a 2-byte big-endian length then that
many bytes. -/
def skip_vec_u16 (s : RState) : Except PErr RState :=
  match read_u16L s with
  | .error e => .error e
  | .ok (sz, s1) => skip s1 sz

/-- `reader.read_exact(&mut buf)` with `buf.len() = n`: exactly the next
`n` bytes, or `UnexpectedEof` when budget or stream fall short. -/
def read_exact (s : RState) (n : Nat) : Except PErr (List Nat × RState) :=
  if s.avail < n then .error (.truncated n s.avail)
  else .ok ((s.data.drop s.pos).take n, ⟨s.data, s.pos + n, s.limit - n⟩)

/-- The budget-narrowing step the source repeats at lines 52-53, 65-66,
69-70 and 84-85: `let new_limit = min(reader.limit(), x);
reader.set_limit(new_limit)`. -/
def set_limit_min (s : RState) (n : Nat) : RState := ⟨s.data, s.pos, min s.limit n⟩

/-- Rust `String::from_utf8` validity on a byte sequence: standard UTF-8,
rejecting continuation-only bytes, overlong forms, surrogates and values
above U+10FFFF. -/
def validUtf8 : List Nat → Bool
  | [] => true
  | b :: rest =>
    if b < 128 then validUtf8 rest
    else if b < 194 then false
    else if b < 224 then
      match rest with
      | b1 :: rest2 => (decide (128 ≤ b1) && decide (b1 < 192)) && validUtf8 rest2
      | [] => false
    else if b < 240 then
      match rest with
      | b1 :: b2 :: rest3 =>
        (if b = 224 then decide (160 ≤ b1) && decide (b1 < 192)
         else if b = 237 then decide (128 ≤ b1) && decide (b1 < 160)
         else decide (128 ≤ b1) && decide (b1 < 192))
          && (decide (128 ≤ b2) && decide (b2 < 192)) && validUtf8 rest3
      | _ => false
    else if b < 245 then
      match rest with
      | b1 :: b2 :: b3 :: rest4 =>
        (if b = 240 then decide (144 ≤ b1) && decide (b1 < 192)
         else if b = 244 then decide (128 ≤ b1) && decide (b1 < 144)
         else decide (128 ≤ b1) && decide (b1 < 192))
          && (decide (128 ≤ b2) && decide (b2 < 192))
          && (decide (128 ≤ b3) && decide (b3 < 192)) && validUtf8 rest4
      | _ => false
    else false

theorem read_u8L_ok_inv {s : RState} {b : Nat} {s' : RState}
    (h : read_u8L s = .ok (b, s')) :
    1 ≤ s.limit ∧ s.data.drop s.pos = b :: s.data.drop (s.pos + 1) ∧
      s' = ⟨s.data, s.pos + 1, s.limit - 1⟩ := by
  unfold read_u8L at h
  split at h
  · exact absurd h (by simp)
  · rename_i hl
    split at h
    · exact absurd h (by simp)
    · rename_i b0 tl hdrop
      simp only [Except.ok.injEq, Prod.mk.injEq] at h
      refine ⟨by omega, ?_, by simp [← h.1, ← h.2]⟩
      rw [hdrop, h.1]
      have : s.data.drop (s.pos + 1) = (s.data.drop s.pos).drop 1 := by
        rw [List.drop_drop]
      rw [this, hdrop]
      simp

theorem read_u16L_ok_inv {s : RState} {v : Nat} {s' : RState}
    (h : read_u16L s = .ok (v, s')) :
    2 ≤ s.limit ∧ s' = ⟨s.data, s.pos + 2, s.limit - 2⟩ := by
  unfold read_u16L at h
  split at h
  · exact absurd h (by simp)
  · rename_i b0 s1 h1
    split at h
    · exact absurd h (by simp)
    · rename_i b1 s2 h2
      simp only [Except.ok.injEq, Prod.mk.injEq] at h
      obtain ⟨hl1, _, hs1⟩ := read_u8L_ok_inv h1
      rw [hs1] at h2
      obtain ⟨hl2, _, hs2⟩ := read_u8L_ok_inv h2
      simp only at hl2 hs2
      constructor
      · omega
      · rw [← h.2, hs2]
        have hlim : s.limit - 1 - 1 = s.limit - 2 := by omega
        simp [hlim]

theorem skip_ok_inv {s : RState} {n : Nat} {s' : RState}
    (h : skip s n = .ok s') :
    n ≤ s.avail ∧ s' = ⟨s.data, s.pos + n, s.limit - n⟩ := by
  unfold skip at h
  split at h
  · exact absurd h (by simp)
  · rename_i hge
    simp only [Except.ok.injEq] at h
    exact ⟨by omega, h.symm⟩

theorem skip_vec_u16_ok_inv {s : RState} {s' : RState}
    (h : skip_vec_u16 s = .ok s') :
    2 ≤ s.limit ∧ s'.limit + 2 ≤ s.limit ∧ s'.data = s.data := by
  unfold skip_vec_u16 at h
  split at h
  · exact absurd h (by simp)
  · rename_i sz s1 h1
    obtain ⟨hl1, hs1⟩ := read_u16L_ok_inv h1
    obtain ⟨hav, hs⟩ := skip_ok_inv h
    rw [hs1] at hav hs
    unfold RState.avail at hav
    simp only at hav
    rw [hs]
    refine ⟨hl1, by simp; omega, by simp⟩

/-- The ServerNameList loop (source lines 73-91): read a 1-byte name
type; a non-host-name entry is skipped as a u16-length vector and the
loop continues; a host-name entry reads a 2-byte length, narrows the
budget, reads exactly that many bytes and decodes them as UTF-8. -/
def snlLoop (s : RState) : Except PErr (List Nat × RState) :=
  match h1 : read_u8L s with
  | .error e => .error e
  | .ok (nameTyp, s1) =>
    if nameTyp ≠ 0 then
      match h2 : skip_vec_u16 s1 with
      | .error e => .error e
      | .ok s2 => snlLoop s2
    else
      match read_u16L s1 with
      | .error e => .error e
      | .ok (nameLen, s2) =>
        match read_exact (set_limit_min s2 nameLen) nameLen with
        | .error e => .error e
        | .ok (nameBuf, s3) =>
          if validUtf8 nameBuf then .ok (nameBuf, s3) else .error .invalidUtf8
termination_by s.limit
decreasing_by
  obtain ⟨ha, hb, hc⟩ := read_u8L_ok_inv h1
  obtain ⟨hd, he, hf⟩ := skip_vec_u16_ok_inv h2
  rw [hc] at he
  simp only at he
  omega

theorem skip_ok_limit {s : RState} {n : Nat} {s' : RState}
    (h : skip s n = .ok s') : s'.limit + n = s.limit ∧ s'.data = s.data := by
  obtain ⟨hav, hs⟩ := skip_ok_inv h
  unfold RState.avail at hav
  rw [hs]
  constructor
  · simp only
    omega
  · simp

/-- The extensions loop (source lines 55-92): read extension type and
length; a non-SNI extension is skipped and the loop continues; the SNI
extension narrows the budget to its length, reads the ServerNameList
length, narrows again, and runs the ServerNameList loop. -/
def extLoop (s : RState) : Except PErr (List Nat × RState) :=
  match h1 : read_u16L s with
  | .error e => .error e
  | .ok (extTyp, s1) =>
    match h2 : read_u16L s1 with
    | .error e => .error e
    | .ok (extLen, s2) =>
      if extTyp ≠ 0 then
        match h3 : skip s2 extLen with
        | .error e => .error e
        | .ok s3 => extLoop s3
      else
        match read_u16L (set_limit_min s2 extLen) with
        | .error e => .error e
        | .ok (snlLen, s3) => snlLoop (set_limit_min s3 snlLen)
termination_by s.limit
decreasing_by
  obtain ⟨ha, hb⟩ := read_u16L_ok_inv h1
  obtain ⟨hc, hd⟩ := read_u16L_ok_inv h2
  obtain ⟨he, hf⟩ := skip_ok_limit h3
  rw [hb] at hc hd
  rw [hd] at he
  simp only at hc he
  omega

/-- `reader.read_u8()` on the raw (not yet limited) stream, consuming
from the front. -/
def read_u8raw (l : List Nat) : Except PErr (Nat × List Nat) :=
  match l with
  | [] => .error (.truncated 1 0)
  | b :: rest => .ok (b, rest)

/-- `read_u24` (source lines 116-123): `read_exact` of 3 bytes combined
big-endian by `NetworkEndian::read_u24`; `UnexpectedEof` when fewer than
3 bytes remain. -/
def read_u24 (l : List Nat) : Except PErr (Nat × List Nat) :=
  match l with
  | b0 :: b1 :: b2 :: rest => .ok (b0 * 65536 + b1 * 256 + b2, rest)
  | _ => .error (.truncated 3 l.length)

/-- The body of the extractor after the handshake type and length were
read and the reader was wrapped in `take(len)` (source lines 42-92):
skip version and random (34 bytes), the session ID, cipher suites and
compression method vectors, read the extensions length, narrow the
budget to it and run the extensions loop. -/
def afterHeader (s : RState) : Except PErr (List Nat × RState) :=
  match skip s 34 with
  | .error e => .error e
  | .ok s1 =>
    match skip_vec_u8 s1 with
    | .error e => .error e
    | .ok s2 =>
      match skip_vec_u16 s2 with
      | .error e => .error e
      | .ok s3 =>
        match skip_vec_u8 s3 with
        | .error e => .error e
        | .ok s4 =>
          match read_u16L s4 with
          | .error e => .error e
          | .ok (extLen, s5) => extLoop (set_limit_min s5 extLen)

/-- The whole extractor (source lines 21-92), also reporting the final
reader state: read the handshake type byte, reject a non-ClientHello,
read the 3-byte body length, build the `take(len)` reader positioned
after the 4 header bytes, and run the rest of the parse. -/
def runExtract (data : List Nat) : Except PErr (List Nat × RState) :=
  match read_u8raw data with
  | .error e => .error e
  | .ok (typ, _) =>
    if typ ≠ 1 then .error (.wrongType typ 1)
    else
      match read_u24 (data.drop 1) with
      | .error e => .error e
      | .ok (len, _) => afterHeader ⟨data, 4, len⟩

/-- `read_sni_host_name_from_client_hello` (source lines 21-92): the
public result is the host name, as its UTF-8 byte sequence. -/
def read_sni_host_name_from_client_hello (data : List Nat) : Except PErr (List Nat) :=
  match runExtract data with
  | .error e => .error e
  | .ok (name, _) => .ok name

/-! ### Well-formed ClientHello encodings

To state the universally quantified claims we build ClientHello byte
sequences from structured parts.  These definitions follow the wire
format the source walks through, not the source itself. -/

/-- 2-byte big-endian encoding of a value below 65536. -/
def u16be (n : Nat) : List Nat := [n / 256, n % 256]

/-- 3-byte big-endian encoding of a value below 16777216. -/
def u24be (n : Nat) : List Nat := [n / 65536, n / 256 % 256, n % 256]

/-- One extension: 2-byte type, 2-byte length, payload. -/
def encodeExt (e : Nat × List Nat) : List Nat := u16be e.1 ++ u16be e.2.length ++ e.2

/-- A run of encoded extensions. -/
def encodeExts (es : List (Nat × List Nat)) : List Nat := (es.map encodeExt).flatten

/-- One ServerNameList entry: 1-byte name type, 2-byte length, payload. -/
def encodeEntry (e : Nat × List Nat) : List Nat := e.1 :: (u16be e.2.length ++ e.2)

/-- A run of encoded ServerNameList entries. -/
def encodeEntries (es : List (Nat × List Nat)) : List Nat := (es.map encodeEntry).flatten

/-- The host-name entry: name type 0, 2-byte length, the name bytes. -/
def hostEntry (name : List Nat) : List Nat := 0 :: (u16be name.length ++ name)

/-- A ServerNameList: some non-host-name entries, then the host name. -/
def encodeSNL (entries : List (Nat × List Nat)) (name : List Nat) : List Nat :=
  encodeEntries entries ++ hostEntry name

/-- The SNI extension around a given ServerNameList payload: type 0,
extension length, 2-byte ServerNameList length, the list itself. -/
def encodeSniExtOf (snl : List Nat) : List Nat :=
  u16be 0 ++ u16be (snl.length + 2) ++ (u16be snl.length ++ snl)

/-- The ClientHello body: version and random (34 bytes), session ID
vector, cipher-suites vector, compression-methods vector, extensions
length, extensions bytes. -/
def bodyOf (vr sid cs comp extBytes : List Nat) : List Nat :=
  vr ++ (sid.length :: sid) ++ (u16be cs.length ++ cs) ++ (comp.length :: comp) ++
    (u16be extBytes.length ++ extBytes)

/-- The full handshake message: type 1, 3-byte body length, body, then
any bytes the parser is never meant to look at. -/
def encodeMsg (body trailing : List Nat) : List Nat :=
  1 :: (u24be body.length ++ body ++ trailing)

/-- A structured ClientHello whose extensions end with one SNI extension
holding exactly one host-name entry, preceded by arbitrary non-SNI
extensions and arbitrary non-host-name entries. -/
structure ClientHello where
  versionRandom : List Nat
  sessionId : List Nat
  cipherSuites : List Nat
  compression : List Nat
  extsBefore : List (Nat × List Nat)
  entriesBefore : List (Nat × List Nat)
  hostName : List Nat
  trailing : List Nat

/-- The extensions block of a structured ClientHello. -/
def ClientHello.extBytes (ch : ClientHello) : List Nat :=
  encodeExts ch.extsBefore ++ encodeSniExtOf (encodeSNL ch.entriesBefore ch.hostName)

/-- The handshake body of a structured ClientHello. -/
def ClientHello.body (ch : ClientHello) : List Nat :=
  bodyOf ch.versionRandom ch.sessionId ch.cipherSuites ch.compression ch.extBytes

/-- The byte sequence of a structured ClientHello. -/
def ClientHello.encode (ch : ClientHello) : List Nat := encodeMsg ch.body ch.trailing

/-- Well-formedness: every declared length fits its length field, the
version-and-random block is 34 bytes, preceding extensions are not SNI
(type 0) and preceding entries are not host names (type 0). -/
def ClientHello.WF (ch : ClientHello) : Prop :=
  ch.versionRandom.length = 34 ∧
  ch.sessionId.length < 256 ∧
  ch.cipherSuites.length < 65536 ∧
  ch.compression.length < 256 ∧
  (∀ e ∈ ch.extsBefore, e.1 ≠ 0 ∧ e.1 < 65536 ∧ e.2.length < 65536) ∧
  (∀ e ∈ ch.entriesBefore, e.1 ≠ 0 ∧ e.1 < 256 ∧ e.2.length < 65536) ∧
  ch.hostName.length < 65536 ∧
  (encodeSNL ch.entriesBefore ch.hostName).length + 2 < 65536 ∧
  ch.extBytes.length < 65536 ∧
  ch.body.length < 16777216

theorem u16be_length (n : Nat) : (u16be n).length = 2 := rfl

theorem u24be_length (n : Nat) : (u24be n).length = 3 := rfl

theorem encodeExt_length (e : Nat × List Nat) :
    (encodeExt e).length = 4 + e.2.length := by
  simp [encodeExt, u16be]
  omega

theorem encodeEntry_length (e : Nat × List Nat) :
    (encodeEntry e).length = 3 + e.2.length := by
  simp [encodeEntry, u16be]
  omega

theorem hostEntry_length (name : List Nat) :
    (hostEntry name).length = 3 + name.length := by
  simp [hostEntry, u16be]
  omega

theorem encodeSniExtOf_length (snl : List Nat) :
    (encodeSniExtOf snl).length = 6 + snl.length := by
  simp [encodeSniExtOf, u16be]
  omega

theorem encodeExts_nil : encodeExts [] = [] := rfl

theorem encodeExts_cons (e : Nat × List Nat) (tl : List (Nat × List Nat)) :
    encodeExts (e :: tl) = encodeExt e ++ encodeExts tl := by
  simp [encodeExts]

theorem encodeEntries_nil : encodeEntries [] = [] := rfl

theorem encodeEntries_cons (e : Nat × List Nat) (tl : List (Nat × List Nat)) :
    encodeEntries (e :: tl) = encodeEntry e ++ encodeEntries tl := by
  simp [encodeEntries]

theorem bodyOf_length (vr sid cs comp extBytes : List Nat) :
    (bodyOf vr sid cs comp extBytes).length =
      vr.length + 6 + sid.length + cs.length + comp.length + extBytes.length := by
  simp [bodyOf, u16be]
  omega

/-! ### Success-path lemmas for the primitives -/

theorem drop_append_eq {data : List Nat} {c r : List Nat} {pos q : Nat}
    (hd : data.drop pos = c ++ r) (hp : q = pos + c.length) :
    data.drop q = r := by
  subst hp
  rw [← List.drop_drop, hd]
  exact List.drop_left c r

theorem read_u8L_ok {data rest : List Nat} {pos limit b pos2 lim2 : Nat}
    (hl : 1 ≤ limit) (hd : data.drop pos = b :: rest)
    (hp : pos2 = pos + 1) (hm : lim2 = limit - 1) :
    read_u8L ⟨data, pos, limit⟩ = .ok (b, ⟨data, pos2, lim2⟩) := by
  subst hp hm
  unfold read_u8L
  simp only
  rw [if_neg (by omega), hd]

theorem read_u16L_ok {data rest : List Nat} {pos limit b0 b1 pos2 lim2 : Nat}
    (hl : 2 ≤ limit) (hd : data.drop pos = b0 :: b1 :: rest)
    (hp : pos2 = pos + 2) (hm : lim2 = limit - 2) :
    read_u16L ⟨data, pos, limit⟩ = .ok (b0 * 256 + b1, ⟨data, pos2, lim2⟩) := by
  have hd1 : data.drop (pos + 1) = b1 :: rest := by
    have := drop_append_eq (c := [b0]) (r := b1 :: rest) (q := pos + 1) hd rfl
    simpa using this
  have e1 : read_u8L ⟨data, pos, limit⟩ = .ok (b0, ⟨data, pos + 1, limit - 1⟩) :=
    read_u8L_ok (by omega) hd rfl rfl
  have e2 : read_u8L ⟨data, pos + 1, limit - 1⟩ = .ok (b1, ⟨data, pos2, lim2⟩) :=
    read_u8L_ok (by omega) hd1 (by omega) (by omega)
  simp only [read_u16L, e1, e2]

theorem read_u16L_enc {data rest : List Nat} {pos limit n pos2 lim2 : Nat}
    (hl : 2 ≤ limit) (hn : n < 65536) (hd : data.drop pos = u16be n ++ rest)
    (hp : pos2 = pos + 2) (hm : lim2 = limit - 2) :
    read_u16L ⟨data, pos, limit⟩ = .ok (n, ⟨data, pos2, lim2⟩) := by
  have hd2 : data.drop pos = n / 256 :: n % 256 :: rest := hd
  rw [read_u16L_ok hl hd2 hp hm]
  congr 2
  omega

theorem skip_ok {data chunk rest : List Nat} {pos limit n pos2 lim2 : Nat}
    (hl : n ≤ limit) (hd : data.drop pos = chunk ++ rest) (hc : chunk.length = n)
    (hp : pos2 = pos + n) (hm : lim2 = limit - n) :
    skip ⟨data, pos, limit⟩ n = .ok ⟨data, pos2, lim2⟩ := by
  subst hp hm
  unfold skip
  have hdl : n ≤ data.length - pos := by
    have := congrArg List.length hd
    simp [List.length_drop] at this
    omega
  rw [if_neg]
  unfold RState.avail
  simp only
  omega

theorem read_exact_ok {data chunk rest : List Nat} {pos limit n pos2 lim2 : Nat}
    (hl : n ≤ limit) (hd : data.drop pos = chunk ++ rest) (hc : chunk.length = n)
    (hp : pos2 = pos + n) (hm : lim2 = limit - n) :
    read_exact ⟨data, pos, limit⟩ n = .ok (chunk, ⟨data, pos2, lim2⟩) := by
  subst hp hm
  have hdl : n ≤ data.length - pos := by
    have := congrArg List.length hd
    simp [List.length_drop] at this
    omega
  unfold read_exact
  rw [if_neg]
  · rw [hd, ← hc, List.take_left]
  · unfold RState.avail
    simp only
    omega

theorem skip_vec_u8_ok {data chunk rest : List Nat} {pos limit n pos2 lim2 : Nat}
    (hl : 1 + n ≤ limit) (hd : data.drop pos = n :: (chunk ++ rest))
    (hc : chunk.length = n) (hp : pos2 = pos + 1 + n) (hm : lim2 = limit - 1 - n) :
    skip_vec_u8 ⟨data, pos, limit⟩ = .ok ⟨data, pos2, lim2⟩ := by
  have hd1 : data.drop (pos + 1) = chunk ++ rest := by
    have := drop_append_eq (c := [n]) (r := chunk ++ rest) (q := pos + 1) hd rfl
    simpa using this
  have e1 : read_u8L ⟨data, pos, limit⟩ = .ok (n, ⟨data, pos + 1, limit - 1⟩) :=
    read_u8L_ok (by omega) hd rfl rfl
  have e2 : skip ⟨data, pos + 1, limit - 1⟩ n = .ok ⟨data, pos2, lim2⟩ :=
    skip_ok (by omega) hd1 hc (by omega) (by omega)
  simp only [skip_vec_u8, e1, e2]

theorem skip_vec_u16_ok {data chunk rest : List Nat} {pos limit n pos2 lim2 : Nat}
    (hl : 2 + n ≤ limit) (hn : n < 65536) (hd : data.drop pos = u16be n ++ (chunk ++ rest))
    (hc : chunk.length = n) (hp : pos2 = pos + 2 + n) (hm : lim2 = limit - 2 - n) :
    skip_vec_u16 ⟨data, pos, limit⟩ = .ok ⟨data, pos2, lim2⟩ := by
  have hd1 : data.drop (pos + 2) = chunk ++ rest :=
    drop_append_eq (c := u16be n) hd rfl
  have e1 : read_u16L ⟨data, pos, limit⟩ = .ok (n, ⟨data, pos + 2, limit - 2⟩) :=
    read_u16L_enc (by omega) hn hd rfl rfl
  have e2 : skip ⟨data, pos + 2, limit - 2⟩ n = .ok ⟨data, pos2, lim2⟩ :=
    skip_ok (by omega) hd1 hc (by omega) (by omega)
  simp only [skip_vec_u16, e1, e2]

/-! ### One-step unfolding lemmas for the two loops -/

theorem snlLoop_err {s : RState} {e : PErr} (h : read_u8L s = .error e) :
    snlLoop s = .error e := by
  rw [snlLoop.eq_def]
  split
  · rename_i e2 he
    rw [h] at he
    simp only [Except.error.injEq] at he
    rw [he]
  · rename_i nameTyp s1 hok
    rw [h] at hok
    exact absurd hok (by simp)

theorem snlLoop_skipStep {s s1 s2 : RState} {t : Nat} (ht : t ≠ 0)
    (h1 : read_u8L s = .ok (t, s1)) (h2 : skip_vec_u16 s1 = .ok s2) :
    snlLoop s = snlLoop s2 := by
  rw [snlLoop.eq_def]
  split
  · rename_i e he
    rw [h1] at he
    exact absurd he (by simp)
  · rename_i nameTyp s1a hok
    rw [h1] at hok
    simp only [Except.ok.injEq, Prod.mk.injEq] at hok
    obtain ⟨hta, hsa⟩ := hok
    subst hta hsa
    rw [if_pos ht]
    split
    · rename_i e he
      rw [h2] at he
      exact absurd he (by simp)
    · rename_i s2a hok2
      rw [h2] at hok2
      simp only [Except.ok.injEq] at hok2
      rw [hok2]

theorem snlLoop_hostStep {s s1 s2 s3 : RState} {n : Nat} {buf : List Nat}
    (h1 : read_u8L s = .ok (0, s1)) (h2 : read_u16L s1 = .ok (n, s2))
    (h3 : read_exact (set_limit_min s2 n) n = .ok (buf, s3)) :
    snlLoop s = if validUtf8 buf then .ok (buf, s3) else .error .invalidUtf8 := by
  rw [snlLoop.eq_def]
  split
  · rename_i e he
    rw [h1] at he
    exact absurd he (by simp)
  · rename_i nameTyp s1a hok
    rw [h1] at hok
    simp only [Except.ok.injEq, Prod.mk.injEq] at hok
    obtain ⟨hta, hsa⟩ := hok
    subst hsa
    rw [if_neg (by omega)]
    rw [h2]
    simp only [h3]

theorem extLoop_err {s : RState} {e : PErr} (h : read_u16L s = .error e) :
    extLoop s = .error e := by
  rw [extLoop.eq_def]
  split
  · rename_i e2 he
    rw [h] at he
    simp only [Except.error.injEq] at he
    rw [he]
  · rename_i extTyp s1 hok
    rw [h] at hok
    exact absurd hok (by simp)

theorem extLoop_skipStep {s s1 s2 s3 : RState} {t n : Nat} (ht : t ≠ 0)
    (h1 : read_u16L s = .ok (t, s1)) (h2 : read_u16L s1 = .ok (n, s2))
    (h3 : skip s2 n = .ok s3) :
    extLoop s = extLoop s3 := by
  rw [extLoop.eq_def]
  split
  · rename_i e he
    rw [h1] at he
    exact absurd he (by simp)
  · rename_i extTyp s1a hok
    rw [h1] at hok
    simp only [Except.ok.injEq, Prod.mk.injEq] at hok
    obtain ⟨hta, hsa⟩ := hok
    subst hta hsa
    split
    · rename_i e he
      rw [h2] at he
      exact absurd he (by simp)
    · rename_i extLen s2a hok2
      rw [h2] at hok2
      simp only [Except.ok.injEq, Prod.mk.injEq] at hok2
      obtain ⟨hna, hsb⟩ := hok2
      subst hna hsb
      rw [if_pos ht]
      split
      · rename_i e he
        rw [h3] at he
        exact absurd he (by simp)
      · rename_i s3a hok3
        rw [h3] at hok3
        simp only [Except.ok.injEq] at hok3
        rw [hok3]

theorem extLoop_sniStep {s s1 s2 s3 : RState} {extLen snlLen : Nat}
    (h1 : read_u16L s = .ok (0, s1)) (h2 : read_u16L s1 = .ok (extLen, s2))
    (h3 : read_u16L (set_limit_min s2 extLen) = .ok (snlLen, s3)) :
    extLoop s = snlLoop (set_limit_min s3 snlLen) := by
  rw [extLoop.eq_def]
  split
  · rename_i e he
    rw [h1] at he
    exact absurd he (by simp)
  · rename_i extTyp s1a hok
    rw [h1] at hok
    simp only [Except.ok.injEq, Prod.mk.injEq] at hok
    obtain ⟨hta, hsa⟩ := hok
    subst hsa
    split
    · rename_i e he
      rw [h2] at he
      exact absurd he (by simp)
    · rename_i extLena s2a hok2
      rw [h2] at hok2
      simp only [Except.ok.injEq, Prod.mk.injEq] at hok2
      obtain ⟨hna, hsb⟩ := hok2
      subst hna hsb
      rw [if_neg (by omega)]
      rw [h3]

/-! ### Traversal lemmas over encoded extension and entry runs -/

theorem snlLoop_skipEntries (entries : List (Nat × List Nat)) :
    ∀ {data rest : List Nat} {pos limit pos2 lim2 : Nat},
    (∀ e ∈ entries, e.1 ≠ 0 ∧ e.1 < 256 ∧ e.2.length < 65536) →
    data.drop pos = encodeEntries entries ++ rest →
    (encodeEntries entries).length ≤ limit →
    pos2 = pos + (encodeEntries entries).length →
    lim2 = limit - (encodeEntries entries).length →
    snlLoop ⟨data, pos, limit⟩ = snlLoop ⟨data, pos2, lim2⟩ := by
  induction entries with
  | nil =>
    intro data rest pos limit pos2 lim2 hwf hd hl hp hm
    simp only [encodeEntries_nil, List.length_nil] at hp hm
    have h1 : pos2 = pos := by omega
    have h2 : lim2 = limit := by omega
    rw [h1, h2]
  | cons e tl ih =>
    intro data rest pos limit pos2 lim2 hwf hd hl hp hm
    obtain ⟨ht, htlt, hlen⟩ := hwf e (by simp)
    rw [encodeEntries_cons] at hd hl hp hm
    have hlc : (encodeEntry e).length = 3 + e.2.length := encodeEntry_length e
    rw [List.length_append, hlc] at hl hp hm
    have hd0 : data.drop pos =
        e.1 :: (u16be e.2.length ++ (e.2 ++ (encodeEntries tl ++ rest))) := by
      rw [hd]
      simp [encodeEntry, List.append_assoc]
    have e1 : read_u8L ⟨data, pos, limit⟩ = .ok (e.1, ⟨data, pos + 1, limit - 1⟩) :=
      read_u8L_ok (by omega) hd0 rfl rfl
    have hd1 : data.drop (pos + 1) = u16be e.2.length ++ (e.2 ++ (encodeEntries tl ++ rest)) := by
      have := drop_append_eq (c := [e.1])
        (r := u16be e.2.length ++ (e.2 ++ (encodeEntries tl ++ rest)))
        (q := pos + 1) hd0 rfl
      simpa using this
    have e2 : skip_vec_u16 ⟨data, pos + 1, limit - 1⟩ =
        .ok ⟨data, pos + 3 + e.2.length, limit - 3 - e.2.length⟩ :=
      skip_vec_u16_ok (by omega) hlen hd1 rfl (by omega) (by omega)
    rw [snlLoop_skipStep ht e1 e2]
    have hd2 : data.drop (pos + 3 + e.2.length) = encodeEntries tl ++ rest := by
      have hc : data.drop (pos + 1 + 2) = e.2 ++ (encodeEntries tl ++ rest) :=
        drop_append_eq (c := u16be e.2.length) hd1 rfl
      have := drop_append_eq (c := e.2) (r := encodeEntries tl ++ rest)
        (q := pos + 1 + 2 + e.2.length) hc rfl
      have h3 : pos + 1 + 2 + e.2.length = pos + 3 + e.2.length := by omega
      rwa [h3] at this
    exact ih (fun x hx => hwf x (by simp [hx])) hd2 (by omega) (by omega) (by omega)

theorem snlLoop_host {data rest name : List Nat} {pos limit pos2 : Nat}
    (hn : name.length < 65536)
    (hd : data.drop pos = hostEntry name ++ rest)
    (hl : limit = 3 + name.length)
    (hp : pos2 = pos + 3 + name.length) :
    snlLoop ⟨data, pos, limit⟩ =
      if validUtf8 name then .ok (name, ⟨data, pos2, 0⟩) else .error .invalidUtf8 := by
  have hd0 : data.drop pos = 0 :: (u16be name.length ++ (name ++ rest)) := by
    rw [hd]
    simp [hostEntry, List.append_assoc]
  have e1 : read_u8L ⟨data, pos, limit⟩ = .ok (0, ⟨data, pos + 1, limit - 1⟩) :=
    read_u8L_ok (by omega) hd0 rfl rfl
  have hd1 : data.drop (pos + 1) = u16be name.length ++ (name ++ rest) := by
    have := drop_append_eq (c := [0]) (r := u16be name.length ++ (name ++ rest))
      (q := pos + 1) hd0 rfl
    simpa using this
  have e2 : read_u16L ⟨data, pos + 1, limit - 1⟩ =
      .ok (name.length, ⟨data, pos + 3, name.length⟩) :=
    read_u16L_enc (by omega) hn hd1 (by omega) (by omega)
  have hd2 : data.drop (pos + 3) = name ++ rest := by
    have := drop_append_eq (c := u16be name.length) (r := name ++ rest)
      (q := pos + 1 + 2) hd1 rfl
    have h3 : pos + 1 + 2 = pos + 3 := by omega
    rwa [h3] at this
  have hmin : set_limit_min ⟨data, pos + 3, name.length⟩ name.length =
      ⟨data, pos + 3, name.length⟩ := by
    simp [set_limit_min]
  have e3 : read_exact (set_limit_min ⟨data, pos + 3, name.length⟩ name.length) name.length =
      .ok (name, ⟨data, pos2, 0⟩) := by
    rw [hmin]
    exact read_exact_ok (by omega) hd2 rfl (by omega) (by omega)
  rw [snlLoop_hostStep e1 e2 e3]

theorem extLoop_skipExts (exts : List (Nat × List Nat)) :
    ∀ {data rest : List Nat} {pos limit pos2 lim2 : Nat},
    (∀ e ∈ exts, e.1 ≠ 0 ∧ e.1 < 65536 ∧ e.2.length < 65536) →
    data.drop pos = encodeExts exts ++ rest →
    (encodeExts exts).length ≤ limit →
    pos2 = pos + (encodeExts exts).length →
    lim2 = limit - (encodeExts exts).length →
    extLoop ⟨data, pos, limit⟩ = extLoop ⟨data, pos2, lim2⟩ := by
  induction exts with
  | nil =>
    intro data rest pos limit pos2 lim2 hwf hd hl hp hm
    simp only [encodeExts_nil, List.length_nil] at hp hm
    have h1 : pos2 = pos := by omega
    have h2 : lim2 = limit := by omega
    rw [h1, h2]
  | cons e tl ih =>
    intro data rest pos limit pos2 lim2 hwf hd hl hp hm
    obtain ⟨ht, htlt, hlen⟩ := hwf e (by simp)
    rw [encodeExts_cons] at hd hl hp hm
    have hlc : (encodeExt e).length = 4 + e.2.length := encodeExt_length e
    rw [List.length_append, hlc] at hl hp hm
    have hd0 : data.drop pos =
        u16be e.1 ++ (u16be e.2.length ++ (e.2 ++ (encodeExts tl ++ rest))) := by
      rw [hd]
      simp [encodeExt, List.append_assoc]
    have e1 : read_u16L ⟨data, pos, limit⟩ = .ok (e.1, ⟨data, pos + 2, limit - 2⟩) :=
      read_u16L_enc (by omega) htlt hd0 rfl rfl
    have hd1 : data.drop (pos + 2) = u16be e.2.length ++ (e.2 ++ (encodeExts tl ++ rest)) :=
      drop_append_eq (c := u16be e.1) hd0 rfl
    have e2 : read_u16L ⟨data, pos + 2, limit - 2⟩ =
        .ok (e.2.length, ⟨data, pos + 4, limit - 4⟩) :=
      read_u16L_enc (by omega) hlen hd1 (by omega) (by omega)
    have hd2 : data.drop (pos + 4) = e.2 ++ (encodeExts tl ++ rest) := by
      have := drop_append_eq (c := u16be e.2.length) (r := e.2 ++ (encodeExts tl ++ rest))
        (q := pos + 2 + 2) hd1 rfl
      have h4 : pos + 2 + 2 = pos + 4 := by omega
      rwa [h4] at this
    have e3 : skip ⟨data, pos + 4, limit - 4⟩ e.2.length =
        .ok ⟨data, pos + 4 + e.2.length, limit - 4 - e.2.length⟩ :=
      skip_ok (by omega) hd2 rfl rfl rfl
    rw [extLoop_skipStep ht e1 e2 e3]
    have hd3 : data.drop (pos + 4 + e.2.length) = encodeExts tl ++ rest := by
      have := drop_append_eq (c := e.2) (r := encodeExts tl ++ rest)
        (q := pos + 4 + e.2.length) hd2 rfl
      exact this
    exact ih (fun x hx => hwf x (by simp [hx])) hd3 (by omega) (by omega) (by omega)

theorem extLoop_sniOf {data rest snl : List Nat} {pos limit : Nat}
    (hsnl : snl.length + 2 < 65536)
    (hd : data.drop pos = encodeSniExtOf snl ++ rest)
    (hl : limit = 6 + snl.length) :
    extLoop ⟨data, pos, limit⟩ = snlLoop ⟨data, pos + 6, snl.length⟩ := by
  have hd0 : data.drop pos =
      u16be 0 ++ (u16be (snl.length + 2) ++ (u16be snl.length ++ (snl ++ rest))) := by
    rw [hd]
    simp [encodeSniExtOf, List.append_assoc]
  have e1 : read_u16L ⟨data, pos, limit⟩ = .ok (0, ⟨data, pos + 2, limit - 2⟩) :=
    read_u16L_enc (by omega) (by omega) hd0 rfl rfl
  have hd1 : data.drop (pos + 2) =
      u16be (snl.length + 2) ++ (u16be snl.length ++ (snl ++ rest)) :=
    drop_append_eq (c := u16be 0) hd0 rfl
  have e2 : read_u16L ⟨data, pos + 2, limit - 2⟩ =
      .ok (snl.length + 2, ⟨data, pos + 4, limit - 4⟩) :=
    read_u16L_enc (by omega) hsnl hd1 (by omega) (by omega)
  have hmin : set_limit_min ⟨data, pos + 4, limit - 4⟩ (snl.length + 2) =
      ⟨data, pos + 4, snl.length + 2⟩ := by
    simp only [set_limit_min, RState.mk.injEq]
    exact ⟨trivial, trivial, by omega⟩
  have hd2 : data.drop (pos + 4) = u16be snl.length ++ (snl ++ rest) := by
    have := drop_append_eq (c := u16be (snl.length + 2))
      (r := u16be snl.length ++ (snl ++ rest)) (q := pos + 2 + 2) hd1 rfl
    have h4 : pos + 2 + 2 = pos + 4 := by omega
    rwa [h4] at this
  have e3 : read_u16L (set_limit_min ⟨data, pos + 4, limit - 4⟩ (snl.length + 2)) =
      .ok (snl.length, ⟨data, pos + 6, snl.length⟩) := by
    rw [hmin]
    exact read_u16L_enc (by omega) (by omega) hd2 (by omega) (by omega)
  rw [extLoop_sniStep e1 e2 e3]
  have hmin2 : set_limit_min ⟨data, pos + 6, snl.length⟩ snl.length =
      ⟨data, pos + 6, snl.length⟩ := by
    simp [set_limit_min]
  rw [hmin2]

/-! ### From the message header down to the extensions loop -/

theorem afterHeader_ok {data vr sid cs comp extBytes rest : List Nat} {pos limit pos2 : Nat}
    (hvr : vr.length = 34) (hsid : sid.length < 256) (hcs : cs.length < 65536)
    (hcomp : comp.length < 256) (hext : extBytes.length < 65536)
    (hd : data.drop pos = bodyOf vr sid cs comp extBytes ++ rest)
    (hl : (bodyOf vr sid cs comp extBytes).length ≤ limit)
    (hp : pos2 = pos + 40 + sid.length + cs.length + comp.length) :
    afterHeader ⟨data, pos, limit⟩ = extLoop ⟨data, pos2, extBytes.length⟩ := by
  have hbl := bodyOf_length vr sid cs comp extBytes
  have hd0 : data.drop pos = vr ++ (sid.length :: (sid ++ (u16be cs.length ++ (cs ++
      (comp.length :: (comp ++ (u16be extBytes.length ++ (extBytes ++ rest)))))))) := by
    rw [hd]
    simp [bodyOf, List.append_assoc]
  have f1 : skip ⟨data, pos, limit⟩ 34 = .ok ⟨data, pos + 34, limit - 34⟩ :=
    skip_ok (by omega) hd0 hvr rfl rfl
  have hd1 : data.drop (pos + 34) = sid.length :: (sid ++ (u16be cs.length ++ (cs ++
      (comp.length :: (comp ++ (u16be extBytes.length ++ (extBytes ++ rest))))))) := by
    have := drop_append_eq hd0 (q := pos + vr.length) rfl
    rwa [hvr] at this
  have f2 : skip_vec_u8 ⟨data, pos + 34, limit - 34⟩ =
      .ok ⟨data, pos + 35 + sid.length, limit - 35 - sid.length⟩ :=
    skip_vec_u8_ok (by omega) hd1 rfl (by omega) (by omega)
  have hd2 : data.drop (pos + 35 + sid.length) = u16be cs.length ++ (cs ++
      (comp.length :: (comp ++ (u16be extBytes.length ++ (extBytes ++ rest))))) := by
    have hd1a : data.drop (pos + 34) = (sid.length :: sid) ++ (u16be cs.length ++ (cs ++
        (comp.length :: (comp ++ (u16be extBytes.length ++ (extBytes ++ rest)))))) := by
      rw [hd1]
      simp
    have := drop_append_eq hd1a (q := pos + 34 + (sid.length :: sid).length) rfl
    have h3 : pos + 34 + (sid.length :: sid).length = pos + 35 + sid.length := by
      simp
      omega
    rwa [h3] at this
  have f3 : skip_vec_u16 ⟨data, pos + 35 + sid.length, limit - 35 - sid.length⟩ =
      .ok ⟨data, pos + 37 + sid.length + cs.length, limit - 37 - sid.length - cs.length⟩ :=
    skip_vec_u16_ok (by omega) hcs hd2 rfl (by omega) (by omega)
  have hd3 : data.drop (pos + 37 + sid.length + cs.length) = comp.length :: (comp ++
      (u16be extBytes.length ++ (extBytes ++ rest))) := by
    have hd2a : data.drop (pos + 35 + sid.length) = (u16be cs.length ++ cs) ++
        (comp.length :: (comp ++ (u16be extBytes.length ++ (extBytes ++ rest)))) := by
      rw [hd2]
      simp
    have := drop_append_eq hd2a (q := pos + 35 + sid.length + (u16be cs.length ++ cs).length) rfl
    have h3 : pos + 35 + sid.length + (u16be cs.length ++ cs).length =
        pos + 37 + sid.length + cs.length := by
      simp [u16be]
      omega
    rwa [h3] at this
  have f4 : skip_vec_u8 ⟨data, pos + 37 + sid.length + cs.length,
      limit - 37 - sid.length - cs.length⟩ =
      .ok ⟨data, pos + 38 + sid.length + cs.length + comp.length,
        limit - 38 - sid.length - cs.length - comp.length⟩ :=
    skip_vec_u8_ok (by omega) hd3 rfl (by omega) (by omega)
  have hd4 : data.drop (pos + 38 + sid.length + cs.length + comp.length) =
      u16be extBytes.length ++ (extBytes ++ rest) := by
    have hd3a : data.drop (pos + 37 + sid.length + cs.length) = (comp.length :: comp) ++
        (u16be extBytes.length ++ (extBytes ++ rest)) := by
      rw [hd3]
      simp
    have := drop_append_eq hd3a
      (q := pos + 37 + sid.length + cs.length + (comp.length :: comp).length) rfl
    have h3 : pos + 37 + sid.length + cs.length + (comp.length :: comp).length =
        pos + 38 + sid.length + cs.length + comp.length := by
      simp
      omega
    rwa [h3] at this
  have f5 : read_u16L ⟨data, pos + 38 + sid.length + cs.length + comp.length,
      limit - 38 - sid.length - cs.length - comp.length⟩ =
      .ok (extBytes.length, ⟨data, pos + 40 + sid.length + cs.length + comp.length,
        limit - 40 - sid.length - cs.length - comp.length⟩) :=
    read_u16L_enc (by omega) hext hd4 (by omega) (by omega)
  simp only [afterHeader, f1, f2, f3, f4, f5]
  have hstate : set_limit_min ⟨data, pos + 40 + sid.length + cs.length + comp.length,
      limit - 40 - sid.length - cs.length - comp.length⟩ extBytes.length =
      ⟨data, pos2, extBytes.length⟩ := by
    simp only [set_limit_min, RState.mk.injEq]
    exact ⟨trivial, by omega, by omega⟩
  rw [hstate]

theorem runExtract_msg {body trailing : List Nat} (hb : body.length < 16777216) :
    runExtract (encodeMsg body trailing) =
      afterHeader ⟨encodeMsg body trailing, 4, body.length⟩ := by
  have h8 : read_u8raw (encodeMsg body trailing) =
      .ok (1, u24be body.length ++ body ++ trailing) := by
    simp [encodeMsg, read_u8raw]
  have hdrop : (encodeMsg body trailing).drop 1 =
      body.length / 65536 :: (body.length / 256 % 256 :: (body.length % 256 ::
        (body ++ trailing))) := by
    simp [encodeMsg, u24be]
  have h24 : read_u24 ((encodeMsg body trailing).drop 1) = .ok (body.length, body ++ trailing) := by
    rw [hdrop]
    simp only [read_u24, Except.ok.injEq, Prod.mk.injEq]
    exact ⟨by omega, trivial⟩
  simp only [runExtract, h8, h24]
  simp

/-- Master lemma: a well-formed ClientHello whose extensions end in one
SNI extension with one host-name entry parses to that host name when its
bytes are valid UTF-8 and to the UTF-8 error otherwise, consuming the
stream exactly to the end of the name. -/
theorem runExtract_wf (vr sid cs comp name tr : List Nat)
    (exts entries : List (Nat × List Nat))
    (hvr : vr.length = 34) (hsid : sid.length < 256) (hcs : cs.length < 65536)
    (hcomp : comp.length < 256)
    (hexts : ∀ e ∈ exts, e.1 ≠ 0 ∧ e.1 < 65536 ∧ e.2.length < 65536)
    (hentries : ∀ e ∈ entries, e.1 ≠ 0 ∧ e.1 < 256 ∧ e.2.length < 65536)
    (hname : name.length < 65536)
    (hsnl : (encodeSNL entries name).length + 2 < 65536)
    (hext : (encodeExts exts ++ encodeSniExtOf (encodeSNL entries name)).length < 65536)
    (hbody : (bodyOf vr sid cs comp
      (encodeExts exts ++ encodeSniExtOf (encodeSNL entries name))).length < 16777216) :
    runExtract (encodeMsg (bodyOf vr sid cs comp
        (encodeExts exts ++ encodeSniExtOf (encodeSNL entries name))) tr) =
      if validUtf8 name then
        .ok (name, ⟨encodeMsg (bodyOf vr sid cs comp
          (encodeExts exts ++ encodeSniExtOf (encodeSNL entries name))) tr,
          4 + (bodyOf vr sid cs comp
            (encodeExts exts ++ encodeSniExtOf (encodeSNL entries name))).length, 0⟩)
      else .error .invalidUtf8 := by
  rw [runExtract_msg hbody]
  have hd4 : (encodeMsg (bodyOf vr sid cs comp
      (encodeExts exts ++ encodeSniExtOf (encodeSNL entries name))) tr).drop 4 =
      bodyOf vr sid cs comp
        (encodeExts exts ++ encodeSniExtOf (encodeSNL entries name)) ++ tr := by
    simp [encodeMsg, u24be]
  rw [afterHeader_ok hvr hsid hcs hcomp hext hd4 (le_refl _) rfl]
  have hpfx : (encodeMsg (bodyOf vr sid cs comp
      (encodeExts exts ++ encodeSniExtOf (encodeSNL entries name))) tr).drop 4 =
      (vr ++ (sid.length :: sid) ++ (u16be cs.length ++ cs) ++ (comp.length :: comp) ++
        u16be (encodeExts exts ++ encodeSniExtOf (encodeSNL entries name)).length) ++
      ((encodeExts exts ++ encodeSniExtOf (encodeSNL entries name)) ++ tr) := by
    rw [hd4]
    simp [bodyOf, List.append_assoc]
  have hpfxlen : (vr ++ (sid.length :: sid) ++ (u16be cs.length ++ cs) ++
      (comp.length :: comp) ++
      u16be (encodeExts exts ++ encodeSniExtOf (encodeSNL entries name)).length).length =
      40 + sid.length + cs.length + comp.length := by
    simp [u16be]
    omega
  have hP2 : (encodeMsg (bodyOf vr sid cs comp
      (encodeExts exts ++ encodeSniExtOf (encodeSNL entries name))) tr).drop
        (4 + 40 + sid.length + cs.length + comp.length) =
      encodeExts exts ++ (encodeSniExtOf (encodeSNL entries name) ++ tr) := by
    have h0 := drop_append_eq hpfx (q := 4 + (vr ++ (sid.length :: sid) ++
      (u16be cs.length ++ cs) ++ (comp.length :: comp) ++
      u16be (encodeExts exts ++ encodeSniExtOf (encodeSNL entries name)).length).length) rfl
    rw [hpfxlen] at h0
    have harith : 4 + (40 + sid.length + cs.length + comp.length) =
        4 + 40 + sid.length + cs.length + comp.length := by omega
    rw [harith] at h0
    rw [h0]
    simp [List.append_assoc]
  rw [extLoop_skipExts exts hexts hP2
    (by simp [List.length_append]) rfl rfl]
  have hP3 : (encodeMsg (bodyOf vr sid cs comp
      (encodeExts exts ++ encodeSniExtOf (encodeSNL entries name))) tr).drop
        (4 + 40 + sid.length + cs.length + comp.length + (encodeExts exts).length) =
      encodeSniExtOf (encodeSNL entries name) ++ tr :=
    drop_append_eq hP2 rfl
  have hlim3 : (encodeExts exts ++ encodeSniExtOf (encodeSNL entries name)).length -
      (encodeExts exts).length = 6 + (encodeSNL entries name).length := by
    simp [List.length_append, encodeSniExtOf_length]
  rw [extLoop_sniOf hsnl hP3 hlim3]
  have hP3a : (encodeMsg (bodyOf vr sid cs comp
      (encodeExts exts ++ encodeSniExtOf (encodeSNL entries name))) tr).drop
        (4 + 40 + sid.length + cs.length + comp.length + (encodeExts exts).length) =
      (u16be 0 ++ (u16be ((encodeSNL entries name).length + 2) ++
        u16be (encodeSNL entries name).length)) ++ (encodeSNL entries name ++ tr) := by
    rw [hP3]
    simp [encodeSniExtOf, List.append_assoc]
  have hP4 : (encodeMsg (bodyOf vr sid cs comp
      (encodeExts exts ++ encodeSniExtOf (encodeSNL entries name))) tr).drop
        (4 + 40 + sid.length + cs.length + comp.length + (encodeExts exts).length + 6) =
      encodeEntries entries ++ (hostEntry name ++ tr) := by
    have h0 := drop_append_eq hP3a (q := 4 + 40 + sid.length + cs.length + comp.length +
      (encodeExts exts).length + 6) (by simp [u16be])
    rw [h0]
    simp [encodeSNL, List.append_assoc]
  rw [snlLoop_skipEntries entries hentries hP4
    (by simp [encodeSNL, List.length_append]) rfl rfl]
  have hP5 : (encodeMsg (bodyOf vr sid cs comp
      (encodeExts exts ++ encodeSniExtOf (encodeSNL entries name))) tr).drop
        (4 + 40 + sid.length + cs.length + comp.length + (encodeExts exts).length + 6 +
          (encodeEntries entries).length) =
      hostEntry name ++ tr :=
    drop_append_eq hP4 rfl
  have hlim5 : (encodeSNL entries name).length - (encodeEntries entries).length =
      3 + name.length := by
    simp [encodeSNL, List.length_append, hostEntry_length]
  rw [snlLoop_host hname hP5 hlim5 rfl]
  have hfinal : 4 + 40 + sid.length + cs.length + comp.length + (encodeExts exts).length + 6 +
      (encodeEntries entries).length + 3 + name.length =
      4 + (bodyOf vr sid cs comp
        (encodeExts exts ++ encodeSniExtOf (encodeSNL entries name))).length := by
    have hbl := bodyOf_length vr sid cs comp
      (encodeExts exts ++ encodeSniExtOf (encodeSNL entries name))
    have hXlen : (encodeExts exts ++ encodeSniExtOf (encodeSNL entries name)).length =
        (encodeExts exts).length + (6 + (encodeSNL entries name).length) := by
      simp [List.length_append, encodeSniExtOf_length]
    have hSNLlen : (encodeSNL entries name).length =
        (encodeEntries entries).length + (3 + name.length) := by
      simp [encodeSNL, List.length_append, hostEntry_length]
    omega
  rw [hfinal]

/-! ### Budget-exhaustion lemmas and the no-SNI / no-host-name paths -/

theorem read_u8L_limit_zero {data : List Nat} {pos : Nat} :
    read_u8L ⟨data, pos, 0⟩ = .error (.truncated 1 0) := by
  unfold read_u8L
  simp

theorem read_u16L_err {s : RState} {e : PErr} (h : read_u8L s = .error e) :
    read_u16L s = .error e := by
  simp only [read_u16L, h]

theorem extLoop_limit_zero {data : List Nat} {pos : Nat} :
    extLoop ⟨data, pos, 0⟩ = .error (.truncated 1 0) :=
  extLoop_err (read_u16L_err read_u8L_limit_zero)

theorem snlLoop_limit_zero {data : List Nat} {pos : Nat} :
    snlLoop ⟨data, pos, 0⟩ = .error (.truncated 1 0) :=
  snlLoop_err read_u8L_limit_zero

/-- A well-formed ClientHello whose extensions block holds only non-SNI
extensions: the extensions loop exhausts its budget and the next
extension-type read fails with end-of-data. -/
theorem runExtract_noSni {vr sid cs comp tr : List Nat} {exts : List (Nat × List Nat)}
    (hvr : vr.length = 34) (hsid : sid.length < 256) (hcs : cs.length < 65536)
    (hcomp : comp.length < 256)
    (hexts : ∀ e ∈ exts, e.1 ≠ 0 ∧ e.1 < 65536 ∧ e.2.length < 65536)
    (hext : (encodeExts exts).length < 65536)
    (hbody : (bodyOf vr sid cs comp (encodeExts exts)).length < 16777216) :
    runExtract (encodeMsg (bodyOf vr sid cs comp (encodeExts exts)) tr) =
      .error (.truncated 1 0) := by
  rw [runExtract_msg hbody]
  have hd4 : (encodeMsg (bodyOf vr sid cs comp (encodeExts exts)) tr).drop 4 =
      bodyOf vr sid cs comp (encodeExts exts) ++ tr := by
    simp [encodeMsg, u24be]
  rw [afterHeader_ok hvr hsid hcs hcomp hext hd4 (le_refl _) rfl]
  have hpfx : (encodeMsg (bodyOf vr sid cs comp (encodeExts exts)) tr).drop 4 =
      (vr ++ (sid.length :: sid) ++ (u16be cs.length ++ cs) ++ (comp.length :: comp) ++
        u16be (encodeExts exts).length) ++ (encodeExts exts ++ tr) := by
    rw [hd4]
    simp [bodyOf, List.append_assoc]
  have hpfxlen : (vr ++ (sid.length :: sid) ++ (u16be cs.length ++ cs) ++
      (comp.length :: comp) ++ u16be (encodeExts exts).length).length =
      40 + sid.length + cs.length + comp.length := by
    simp [u16be]
    omega
  have hP2 : (encodeMsg (bodyOf vr sid cs comp (encodeExts exts)) tr).drop
      (4 + 40 + sid.length + cs.length + comp.length) = encodeExts exts ++ tr := by
    have h0 := drop_append_eq hpfx (q := 4 + (vr ++ (sid.length :: sid) ++
      (u16be cs.length ++ cs) ++ (comp.length :: comp) ++
      u16be (encodeExts exts).length).length) rfl
    rw [hpfxlen] at h0
    have harith : 4 + (40 + sid.length + cs.length + comp.length) =
        4 + 40 + sid.length + cs.length + comp.length := by omega
    rwa [harith] at h0
  rw [extLoop_skipExts exts hexts hP2 (le_refl _) rfl rfl]
  have hz : (encodeExts exts).length - (encodeExts exts).length = 0 := by omega
  rw [hz]
  exact extLoop_limit_zero

/-- A well-formed ClientHello whose single SNI extension holds only
non-host-name entries: the ServerNameList loop exhausts its budget and
the next name-type read fails with end-of-data. -/
theorem runExtract_noHostName {vr sid cs comp tr : List Nat}
    {exts entries : List (Nat × List Nat)}
    (hvr : vr.length = 34) (hsid : sid.length < 256) (hcs : cs.length < 65536)
    (hcomp : comp.length < 256)
    (hexts : ∀ e ∈ exts, e.1 ≠ 0 ∧ e.1 < 65536 ∧ e.2.length < 65536)
    (hentries : ∀ e ∈ entries, e.1 ≠ 0 ∧ e.1 < 256 ∧ e.2.length < 65536)
    (hsnl : (encodeEntries entries).length + 2 < 65536)
    (hext : (encodeExts exts ++ encodeSniExtOf (encodeEntries entries)).length < 65536)
    (hbody : (bodyOf vr sid cs comp
      (encodeExts exts ++ encodeSniExtOf (encodeEntries entries))).length < 16777216) :
    runExtract (encodeMsg (bodyOf vr sid cs comp
        (encodeExts exts ++ encodeSniExtOf (encodeEntries entries))) tr) =
      .error (.truncated 1 0) := by
  rw [runExtract_msg hbody]
  have hd4 : (encodeMsg (bodyOf vr sid cs comp
      (encodeExts exts ++ encodeSniExtOf (encodeEntries entries))) tr).drop 4 =
      bodyOf vr sid cs comp (encodeExts exts ++ encodeSniExtOf (encodeEntries entries)) ++ tr := by
    simp [encodeMsg, u24be]
  rw [afterHeader_ok hvr hsid hcs hcomp hext hd4 (le_refl _) rfl]
  have hpfx : (encodeMsg (bodyOf vr sid cs comp
      (encodeExts exts ++ encodeSniExtOf (encodeEntries entries))) tr).drop 4 =
      (vr ++ (sid.length :: sid) ++ (u16be cs.length ++ cs) ++ (comp.length :: comp) ++
        u16be (encodeExts exts ++ encodeSniExtOf (encodeEntries entries)).length) ++
      ((encodeExts exts ++ encodeSniExtOf (encodeEntries entries)) ++ tr) := by
    rw [hd4]
    simp [bodyOf, List.append_assoc]
  have hpfxlen : (vr ++ (sid.length :: sid) ++ (u16be cs.length ++ cs) ++
      (comp.length :: comp) ++
      u16be (encodeExts exts ++ encodeSniExtOf (encodeEntries entries)).length).length =
      40 + sid.length + cs.length + comp.length := by
    simp [u16be]
    omega
  have hP2 : (encodeMsg (bodyOf vr sid cs comp
      (encodeExts exts ++ encodeSniExtOf (encodeEntries entries))) tr).drop
        (4 + 40 + sid.length + cs.length + comp.length) =
      encodeExts exts ++ (encodeSniExtOf (encodeEntries entries) ++ tr) := by
    have h0 := drop_append_eq hpfx (q := 4 + (vr ++ (sid.length :: sid) ++
      (u16be cs.length ++ cs) ++ (comp.length :: comp) ++
      u16be (encodeExts exts ++ encodeSniExtOf (encodeEntries entries)).length).length) rfl
    rw [hpfxlen] at h0
    have harith : 4 + (40 + sid.length + cs.length + comp.length) =
        4 + 40 + sid.length + cs.length + comp.length := by omega
    rw [harith] at h0
    rw [h0]
    simp [List.append_assoc]
  rw [extLoop_skipExts exts hexts hP2 (by simp [List.length_append]) rfl rfl]
  have hP3 : (encodeMsg (bodyOf vr sid cs comp
      (encodeExts exts ++ encodeSniExtOf (encodeEntries entries))) tr).drop
        (4 + 40 + sid.length + cs.length + comp.length + (encodeExts exts).length) =
      encodeSniExtOf (encodeEntries entries) ++ tr :=
    drop_append_eq hP2 rfl
  have hlim3 : (encodeExts exts ++ encodeSniExtOf (encodeEntries entries)).length -
      (encodeExts exts).length = 6 + (encodeEntries entries).length := by
    simp [List.length_append, encodeSniExtOf_length]
  rw [extLoop_sniOf hsnl hP3 hlim3]
  have hP3a : (encodeMsg (bodyOf vr sid cs comp
      (encodeExts exts ++ encodeSniExtOf (encodeEntries entries))) tr).drop
        (4 + 40 + sid.length + cs.length + comp.length + (encodeExts exts).length) =
      (u16be 0 ++ (u16be ((encodeEntries entries).length + 2) ++
        u16be (encodeEntries entries).length)) ++ (encodeEntries entries ++ tr) := by
    rw [hP3]
    simp [encodeSniExtOf, List.append_assoc]
  have hP4 : (encodeMsg (bodyOf vr sid cs comp
      (encodeExts exts ++ encodeSniExtOf (encodeEntries entries))) tr).drop
        (4 + 40 + sid.length + cs.length + comp.length + (encodeExts exts).length + 6) =
      encodeEntries entries ++ tr :=
    drop_append_eq hP3a (by simp [u16be])
  rw [snlLoop_skipEntries entries hentries hP4 (le_refl _) rfl rfl]
  have hz : (encodeEntries entries).length - (encodeEntries entries).length = 0 := by omega
  rw [hz]
  exact snlLoop_limit_zero

/-! ### Inversion and error-propagation lemmas -/

theorem read_exact_ok_inv {s : RState} {n : Nat} {buf : List Nat} {s' : RState}
    (h : read_exact s n = .ok (buf, s')) :
    n ≤ s.avail ∧ buf = (s.data.drop s.pos).take n ∧
      s' = ⟨s.data, s.pos + n, s.limit - n⟩ := by
  unfold read_exact at h
  split at h
  · exact absurd h (by simp)
  · rename_i hge
    simp only [Except.ok.injEq, Prod.mk.injEq] at h
    exact ⟨by omega, h.1.symm, h.2.symm⟩

theorem skip_vec_u8_ok_inv {s : RState} {s' : RState}
    (h : skip_vec_u8 s = .ok s') :
    1 ≤ s.limit ∧ s'.limit + 1 ≤ s.limit ∧ s'.data = s.data ∧ s.pos + 1 ≤ s'.pos := by
  unfold skip_vec_u8 at h
  split at h
  · exact absurd h (by simp)
  · rename_i sz s1 h1
    obtain ⟨hl1, _, hs1⟩ := read_u8L_ok_inv h1
    obtain ⟨hav, hs⟩ := skip_ok_inv h
    rw [hs1] at hav hs
    unfold RState.avail at hav
    simp only at hav
    rw [hs]
    refine ⟨hl1, by simp; omega, by simp, by simp⟩

theorem skip_vec_u16_pos_inv {s : RState} {s' : RState}
    (h : skip_vec_u16 s = .ok s') : s.pos + 2 ≤ s'.pos := by
  unfold skip_vec_u16 at h
  split at h
  · exact absurd h (by simp)
  · rename_i sz s1 h1
    obtain ⟨hl1, hs1⟩ := read_u16L_ok_inv h1
    obtain ⟨hav, hs⟩ := skip_ok_inv h
    rw [hs1] at hs
    rw [hs]
    simp

theorem snlLoop_skipErr {s s1 : RState} {t : Nat} {e : PErr} (ht : t ≠ 0)
    (h1 : read_u8L s = .ok (t, s1)) (h2 : skip_vec_u16 s1 = .error e) :
    snlLoop s = .error e := by
  rw [snlLoop.eq_def]
  split
  · rename_i e2 he
    rw [h1] at he
    exact absurd he (by simp)
  · rename_i nameTyp s1a hok
    rw [h1] at hok
    simp only [Except.ok.injEq, Prod.mk.injEq] at hok
    obtain ⟨hta, hsa⟩ := hok
    subst hta hsa
    rw [if_pos ht]
    split
    · rename_i e2 he
      rw [h2] at he
      simp only [Except.error.injEq] at he
      rw [he]
    · rename_i s2a hok2
      rw [h2] at hok2
      exact absurd hok2 (by simp)

theorem snlLoop_hostErr1 {s s1 : RState} {e : PErr}
    (h1 : read_u8L s = .ok (0, s1)) (h2 : read_u16L s1 = .error e) :
    snlLoop s = .error e := by
  rw [snlLoop.eq_def]
  split
  · rename_i e2 he
    rw [h1] at he
    exact absurd he (by simp)
  · rename_i nameTyp s1a hok
    rw [h1] at hok
    simp only [Except.ok.injEq, Prod.mk.injEq] at hok
    obtain ⟨hta, hsa⟩ := hok
    subst hsa
    rw [if_neg (by omega)]
    rw [h2]

theorem snlLoop_hostErr2 {s s1 s2 : RState} {n : Nat} {e : PErr}
    (h1 : read_u8L s = .ok (0, s1)) (h2 : read_u16L s1 = .ok (n, s2))
    (h3 : read_exact (set_limit_min s2 n) n = .error e) :
    snlLoop s = .error e := by
  rw [snlLoop.eq_def]
  split
  · rename_i e2 he
    rw [h1] at he
    exact absurd he (by simp)
  · rename_i nameTyp s1a hok
    rw [h1] at hok
    simp only [Except.ok.injEq, Prod.mk.injEq] at hok
    obtain ⟨hta, hsa⟩ := hok
    subst hsa
    rw [if_neg (by omega)]
    rw [h2]
    simp only [h3]

theorem extLoop_err2 {s s1 : RState} {t : Nat} {e : PErr}
    (h1 : read_u16L s = .ok (t, s1)) (h2 : read_u16L s1 = .error e) :
    extLoop s = .error e := by
  rw [extLoop.eq_def]
  split
  · rename_i e2 he
    rw [h1] at he
    exact absurd he (by simp)
  · rename_i extTyp s1a hok
    rw [h1] at hok
    simp only [Except.ok.injEq, Prod.mk.injEq] at hok
    obtain ⟨hta, hsa⟩ := hok
    subst hta hsa
    split
    · rename_i e2 he
      rw [h2] at he
      simp only [Except.error.injEq] at he
      rw [he]
    · rename_i extLen s2a hok2
      rw [h2] at hok2
      exact absurd hok2 (by simp)

theorem extLoop_skipErr {s s1 s2 : RState} {t n : Nat} {e : PErr} (ht : t ≠ 0)
    (h1 : read_u16L s = .ok (t, s1)) (h2 : read_u16L s1 = .ok (n, s2))
    (h3 : skip s2 n = .error e) :
    extLoop s = .error e := by
  rw [extLoop.eq_def]
  split
  · rename_i e2 he
    rw [h1] at he
    exact absurd he (by simp)
  · rename_i extTyp s1a hok
    rw [h1] at hok
    simp only [Except.ok.injEq, Prod.mk.injEq] at hok
    obtain ⟨hta, hsa⟩ := hok
    subst hta hsa
    split
    · rename_i e2 he
      rw [h2] at he
      exact absurd he (by simp)
    · rename_i extLen s2a hok2
      rw [h2] at hok2
      simp only [Except.ok.injEq, Prod.mk.injEq] at hok2
      obtain ⟨hna, hsb⟩ := hok2
      subst hna hsb
      rw [if_pos ht]
      split
      · rename_i e2 he
        rw [h3] at he
        simp only [Except.error.injEq] at he
        rw [he]
      · rename_i s3a hok3
        rw [h3] at hok3
        exact absurd hok3 (by simp)

theorem extLoop_sniErr {s s1 s2 : RState} {n : Nat} {e : PErr}
    (h1 : read_u16L s = .ok (0, s1)) (h2 : read_u16L s1 = .ok (n, s2))
    (h3 : read_u16L (set_limit_min s2 n) = .error e) :
    extLoop s = .error e := by
  rw [extLoop.eq_def]
  split
  · rename_i e2 he
    rw [h1] at he
    exact absurd he (by simp)
  · rename_i extTyp s1a hok
    rw [h1] at hok
    simp only [Except.ok.injEq, Prod.mk.injEq] at hok
    obtain ⟨hta, hsa⟩ := hok
    subst hsa
    split
    · rename_i e2 he
      rw [h2] at he
      exact absurd he (by simp)
    · rename_i extLen s2a hok2
      rw [h2] at hok2
      simp only [Except.ok.injEq, Prod.mk.injEq] at hok2
      obtain ⟨hna, hsb⟩ := hok2
      subst hna hsb
      rw [if_neg (by omega)]
      rw [h3]

/-! ### State invariants of the loops: data unchanged, position
monotone, budget non-increasing, and the returned name is the final
stretch of consumed bytes -/

theorem snlLoop_inv_aux : ∀ (m : Nat) (s : RState), s.limit ≤ m →
    ∀ {v : List Nat} {s' : RState}, snlLoop s = .ok (v, s') →
    s'.data = s.data ∧ s.pos ≤ s'.pos ∧ s'.limit ≤ s.limit ∧
      v.length ≤ s'.pos ∧ (s.data.drop (s'.pos - v.length)).take v.length = v := by
  intro m
  induction m with
  | zero =>
    intro s hm v s' h
    have hz : s.limit = 0 := by omega
    have herr : read_u8L s = .error (.truncated 1 0) := by
      unfold read_u8L
      rw [if_pos hz]
    rw [snlLoop_err herr] at h
    exact absurd h (by simp)
  | succ m ih =>
    intro s hm v s' h
    cases hb : read_u8L s with
    | error e =>
      rw [snlLoop_err hb] at h
      exact absurd h (by simp)
    | ok p =>
      obtain ⟨t, s1⟩ := p
      obtain ⟨hl1, hdc, hs1⟩ := read_u8L_ok_inv hb
      by_cases ht : t = 0
      · subst ht
        cases h2 : read_u16L s1 with
        | error e =>
          rw [snlLoop_hostErr1 hb h2] at h
          exact absurd h (by simp)
        | ok q =>
          obtain ⟨n, s2⟩ := q
          obtain ⟨hl2, hs2⟩ := read_u16L_ok_inv h2
          cases h3 : read_exact (set_limit_min s2 n) n with
          | error e =>
            rw [snlLoop_hostErr2 hb h2 h3] at h
            exact absurd h (by simp)
          | ok r =>
            obtain ⟨buf, s3⟩ := r
            obtain ⟨hav3, hbuf, hs3⟩ := read_exact_ok_inv h3
            rw [snlLoop_hostStep hb h2 h3] at h
            by_cases hvu : validUtf8 buf
            · rw [if_pos hvu] at h
              simp only [Except.ok.injEq, Prod.mk.injEq] at h
              obtain ⟨hv, hsp⟩ := h
              subst hv hsp
              rw [hs1] at hs2
              simp only at hs2
              rw [hs2] at hs3 hav3 hbuf
              simp only [set_limit_min, RState.avail] at hav3 hbuf hs3
              rw [hs3]
              have hblen : buf.length = n := by
                rw [hbuf]
                simp only [List.length_take, List.length_drop]
                omega
              refine ⟨rfl, ?_, ?_, ?_, ?_⟩
              · show s.pos ≤ s.pos + 1 + 2 + n
                omega
              · show (s.limit - 1 - 2) ⊓ n - n ≤ s.limit
                omega
              · show buf.length ≤ s.pos + 1 + 2 + n
                omega
              · show (s.data.drop (s.pos + 1 + 2 + n - buf.length)).take buf.length = buf
                rw [hblen]
                have harith : s.pos + 1 + 2 + n - n = s.pos + 1 + 2 := by omega
                rw [harith]
                exact hbuf.symm
            · rw [if_neg hvu] at h
              exact absurd h (by simp)
      · cases h2 : skip_vec_u16 s1 with
        | error e =>
          rw [snlLoop_skipErr ht hb h2] at h
          exact absurd h (by simp)
        | ok s2 =>
          obtain ⟨hl2a, hl2b, hd2⟩ := skip_vec_u16_ok_inv h2
          have hp2 := skip_vec_u16_pos_inv h2
          rw [snlLoop_skipStep ht hb h2] at h
          have hm2 : s2.limit ≤ m := by
            rw [hs1] at hl2b
            simp only at hl2b
            omega
          obtain ⟨ha, hb2, hc, hd, he⟩ := ih s2 hm2 h
          rw [hs1] at hd2 hp2
          simp only at hd2 hp2
          refine ⟨by rw [ha, hd2], by omega, ?_, hd, ?_⟩
          · rw [hs1] at hl2b
            simp only at hl2b
            omega
          · rw [hd2] at he
            exact he

theorem snlLoop_inv {s : RState} {v : List Nat} {s' : RState}
    (h : snlLoop s = .ok (v, s')) :
    s'.data = s.data ∧ s.pos ≤ s'.pos ∧ s'.limit ≤ s.limit ∧
      v.length ≤ s'.pos ∧ (s.data.drop (s'.pos - v.length)).take v.length = v :=
  snlLoop_inv_aux s.limit s (le_refl _) h

theorem extLoop_inv_aux : ∀ (m : Nat) (s : RState), s.limit ≤ m →
    ∀ {v : List Nat} {s' : RState}, extLoop s = .ok (v, s') →
    s'.data = s.data ∧ s.pos ≤ s'.pos ∧ s'.limit ≤ s.limit ∧
      v.length ≤ s'.pos ∧ (s.data.drop (s'.pos - v.length)).take v.length = v := by
  intro m
  induction m with
  | zero =>
    intro s hm v s' h
    have hz : s.limit = 0 := by omega
    have herr : read_u8L s = .error (.truncated 1 0) := by
      unfold read_u8L
      rw [if_pos hz]
    rw [extLoop_err (read_u16L_err herr)] at h
    exact absurd h (by simp)
  | succ m ih =>
    intro s hm v s' h
    cases hb : read_u16L s with
    | error e =>
      rw [extLoop_err hb] at h
      exact absurd h (by simp)
    | ok p =>
      obtain ⟨t, s1⟩ := p
      obtain ⟨hl1, hs1⟩ := read_u16L_ok_inv hb
      cases h2 : read_u16L s1 with
      | error e =>
        rw [extLoop_err2 hb h2] at h
        exact absurd h (by simp)
      | ok q =>
        obtain ⟨n, s2⟩ := q
        obtain ⟨hl2, hs2⟩ := read_u16L_ok_inv h2
        by_cases ht : t = 0
        · subst ht
          cases h3 : read_u16L (set_limit_min s2 n) with
          | error e =>
            rw [extLoop_sniErr hb h2 h3] at h
            exact absurd h (by simp)
          | ok r =>
            obtain ⟨snlLen, s3⟩ := r
            obtain ⟨hl3, hs3⟩ := read_u16L_ok_inv h3
            rw [extLoop_sniStep hb h2 h3] at h
            obtain ⟨ha, hb2, hc, hd, he⟩ := snlLoop_inv h
            rw [hs1] at hs2
            simp only at hs2
            rw [hs2] at hs3
            unfold set_limit_min at hs3
            simp only at hs3
            rw [hs3] at ha hb2 hc he
            simp only [set_limit_min] at ha hb2 hc he
            exact ⟨ha, by omega, by omega, hd, he⟩
        · cases h3 : skip s2 n with
          | error e =>
            rw [extLoop_skipErr ht hb h2 h3] at h
            exact absurd h (by simp)
          | ok s3 =>
            obtain ⟨hav3, hs3⟩ := skip_ok_inv h3
            rw [extLoop_skipStep ht hb h2 h3] at h
            have hm3 : s3.limit ≤ m := by
              rw [hs1] at hs2
              simp only at hs2
              rw [hs2] at hs3 hav3
              unfold RState.avail at hav3
              simp only at hav3 hs3
              rw [hs3]
              simp only
              omega
            obtain ⟨ha, hb2, hc, hd, he⟩ := ih s3 hm3 h
            rw [hs1] at hs2
            simp only at hs2
            rw [hs2] at hs3
            simp only at hs3
            rw [hs3] at ha hb2 hc he
            simp only at ha hb2 hc he
            exact ⟨ha, by omega, by omega, hd, he⟩

theorem extLoop_inv {s : RState} {v : List Nat} {s' : RState}
    (h : extLoop s = .ok (v, s')) :
    s'.data = s.data ∧ s.pos ≤ s'.pos ∧ s'.limit ≤ s.limit ∧
      v.length ≤ s'.pos ∧ (s.data.drop (s'.pos - v.length)).take v.length = v :=
  extLoop_inv_aux s.limit s (le_refl _) h

/-! ### Truncation simulation: running the parser on a prefix of the
stream either behaves identically (when the prefix covers all consumed
bytes) or fails with a truncation error -/

/-- The same reader state over the stream cut off after `k` bytes. -/
def truncSt (k : Nat) (s : RState) : RState := ⟨s.data.take k, s.pos, s.limit⟩

theorem read_u8L_trunc {k : Nat} {s : RState} {b : Nat} {s' : RState}
    (h : read_u8L s = .ok (b, s')) (hk : s.pos ≤ k) :
    (s'.pos ≤ k → read_u8L (truncSt k s) = .ok (b, truncSt k s')) ∧
    (k < s'.pos → read_u8L (truncSt k s) = .error (.truncated 1 0)) := by
  obtain ⟨hl, hdc, hs'⟩ := read_u8L_ok_inv h
  have hsp : s'.pos = s.pos + 1 := by rw [hs']
  constructor
  · intro hk2
    rw [hsp] at hk2
    rw [hs']
    unfold read_u8L truncSt
    simp only
    rw [if_neg (by omega)]
    have hdt : (s.data.take k).drop s.pos =
        b :: ((s.data.drop (s.pos + 1)).take (k - s.pos - 1)) := by
      rw [List.drop_take, hdc]
      have hx : k - s.pos = (k - s.pos - 1) + 1 := by omega
      rw [hx]
      simp
    rw [hdt]
  · intro hk2
    rw [hsp] at hk2
    unfold read_u8L truncSt
    simp only
    rw [if_neg (by omega)]
    have hdt : (s.data.take k).drop s.pos = [] := by
      rw [List.drop_take]
      have hx : k - s.pos = 0 := by omega
      rw [hx]
      simp
    rw [hdt]

theorem read_u16L_trunc {k : Nat} {s : RState} {v : Nat} {s' : RState}
    (h : read_u16L s = .ok (v, s')) (hk : s.pos ≤ k) :
    (s'.pos ≤ k → read_u16L (truncSt k s) = .ok (v, truncSt k s')) ∧
    (k < s'.pos → ∃ r a, read_u16L (truncSt k s) = .error (.truncated r a)) := by
  unfold read_u16L at h
  split at h
  · exact absurd h (by simp)
  · rename_i b0 s1 h1
    split at h
    · exact absurd h (by simp)
    · rename_i b1 s2 h2
      simp only [Except.ok.injEq, Prod.mk.injEq] at h
      obtain ⟨hv, hsp2⟩ := h
      subst hv hsp2
      obtain ⟨hl1, _, hs1⟩ := read_u8L_ok_inv h1
      obtain ⟨hl2, _, hs2⟩ := read_u8L_ok_inv h2
      have hp1 : s1.pos = s.pos + 1 := by rw [hs1]
      have hp2 : s2.pos = s1.pos + 1 := by rw [hs2]
      constructor
      · intro hk2
        have t1 := (read_u8L_trunc h1 hk).1 (by omega)
        have t2 := (read_u8L_trunc (k := k) h2 (by omega)).1 (by omega)
        simp only [read_u16L, t1, t2]
      · intro hk2
        by_cases hc : k < s1.pos
        · have t1 := (read_u8L_trunc h1 hk).2 (by omega)
          exact ⟨1, 0, read_u16L_err t1⟩
        · have t1 := (read_u8L_trunc h1 hk).1 (by omega)
          have t2 := (read_u8L_trunc (k := k) h2 (by omega)).2 (by omega)
          refine ⟨1, 0, ?_⟩
          simp only [read_u16L, t1, t2]

theorem skip_trunc {k : Nat} {s : RState} {n : Nat} {s' : RState}
    (h : skip s n = .ok s') (hk : s.pos ≤ k) :
    (s'.pos ≤ k → skip (truncSt k s) n = .ok (truncSt k s')) ∧
    (k < s'.pos → ∃ r a, skip (truncSt k s) n = .error (.truncated r a)) := by
  obtain ⟨hav, hs'⟩ := skip_ok_inv h
  have hla : n ≤ s.limit ∧ n ≤ s.data.length - s.pos := by
    unfold RState.avail at hav
    omega
  have hsp : s'.pos = s.pos + n := by rw [hs']
  constructor
  · intro hk2
    rw [hsp] at hk2
    rw [hs']
    unfold skip truncSt RState.avail
    simp only [List.length_take]
    rw [if_neg (by omega)]
  · intro hk2
    rw [hsp] at hk2
    unfold skip truncSt RState.avail
    simp only [List.length_take]
    rw [if_pos (by omega)]
    exact ⟨_, _, rfl⟩

theorem read_exact_trunc {k : Nat} {s : RState} {n : Nat} {buf : List Nat} {s' : RState}
    (h : read_exact s n = .ok (buf, s')) (hk : s.pos ≤ k) :
    (s'.pos ≤ k → read_exact (truncSt k s) n = .ok (buf, truncSt k s')) ∧
    (k < s'.pos → ∃ r a, read_exact (truncSt k s) n = .error (.truncated r a)) := by
  obtain ⟨hav, hbuf, hs'⟩ := read_exact_ok_inv h
  have hla : n ≤ s.limit ∧ n ≤ s.data.length - s.pos := by
    unfold RState.avail at hav
    omega
  have hsp : s'.pos = s.pos + n := by rw [hs']
  constructor
  · intro hk2
    rw [hsp] at hk2
    rw [hs']
    unfold read_exact truncSt RState.avail
    simp only [List.length_take]
    rw [if_neg (by omega)]
    have hb : ((s.data.take k).drop s.pos).take n = (s.data.drop s.pos).take n := by
      rw [List.drop_take, List.take_take]
      congr 1
      omega
    rw [hb, ← hbuf]
  · intro hk2
    rw [hsp] at hk2
    unfold read_exact truncSt RState.avail
    simp only [List.length_take]
    rw [if_pos (by omega)]
    exact ⟨_, _, rfl⟩

theorem skip_vec_u8_trunc {k : Nat} {s : RState} {s' : RState}
    (h : skip_vec_u8 s = .ok s') (hk : s.pos ≤ k) :
    (s'.pos ≤ k → skip_vec_u8 (truncSt k s) = .ok (truncSt k s')) ∧
    (k < s'.pos → ∃ r a, skip_vec_u8 (truncSt k s) = .error (.truncated r a)) := by
  unfold skip_vec_u8 at h
  split at h
  · exact absurd h (by simp)
  · rename_i sz s1 h1
    obtain ⟨hl1, _, hs1⟩ := read_u8L_ok_inv h1
    obtain ⟨hav2, hs2⟩ := skip_ok_inv h
    have hp1 : s1.pos = s.pos + 1 := by rw [hs1]
    have hp2 : s'.pos = s1.pos + sz := by rw [hs2]
    constructor
    · intro hk2
      have t1 := (read_u8L_trunc h1 hk).1 (by omega)
      have t2 := (skip_trunc (k := k) h (by omega)).1 (by omega)
      simp only [skip_vec_u8, t1, t2]
    · intro hk2
      by_cases hc : k < s1.pos
      · have t1 := (read_u8L_trunc h1 hk).2 (by omega)
        refine ⟨1, 0, ?_⟩
        simp only [skip_vec_u8, t1]
      · have t1 := (read_u8L_trunc h1 hk).1 (by omega)
        obtain ⟨r, a, t2⟩ := (skip_trunc (k := k) h (by omega)).2 (by omega)
        refine ⟨r, a, ?_⟩
        simp only [skip_vec_u8, t1, t2]

theorem skip_vec_u16_trunc {k : Nat} {s : RState} {s' : RState}
    (h : skip_vec_u16 s = .ok s') (hk : s.pos ≤ k) :
    (s'.pos ≤ k → skip_vec_u16 (truncSt k s) = .ok (truncSt k s')) ∧
    (k < s'.pos → ∃ r a, skip_vec_u16 (truncSt k s) = .error (.truncated r a)) := by
  unfold skip_vec_u16 at h
  split at h
  · exact absurd h (by simp)
  · rename_i sz s1 h1
    obtain ⟨hl1, hs1⟩ := read_u16L_ok_inv h1
    obtain ⟨hav2, hs2⟩ := skip_ok_inv h
    have hp1 : s1.pos = s.pos + 2 := by rw [hs1]
    have hp2 : s'.pos = s1.pos + sz := by rw [hs2]
    constructor
    · intro hk2
      have t1 := (read_u16L_trunc h1 hk).1 (by omega)
      have t2 := (skip_trunc (k := k) h (by omega)).1 (by omega)
      simp only [skip_vec_u16, t1, t2]
    · intro hk2
      by_cases hc : k < s1.pos
      · obtain ⟨r, a, t1⟩ := (read_u16L_trunc h1 hk).2 (by omega)
        refine ⟨r, a, ?_⟩
        simp only [skip_vec_u16, t1]
      · have t1 := (read_u16L_trunc h1 hk).1 (by omega)
        obtain ⟨r, a, t2⟩ := (skip_trunc (k := k) h (by omega)).2 (by omega)
        refine ⟨r, a, ?_⟩
        simp only [skip_vec_u16, t1, t2]

theorem truncSt_set_limit_min (k : Nat) (x : RState) (n : Nat) :
    truncSt k (set_limit_min x n) = set_limit_min (truncSt k x) n := rfl

theorem snlLoop_trunc_aux : ∀ (m : Nat) (s : RState), s.limit ≤ m →
    ∀ {v : List Nat} {s' : RState} {k : Nat}, snlLoop s = .ok (v, s') → s.pos ≤ k →
    (s'.pos ≤ k → snlLoop (truncSt k s) = .ok (v, truncSt k s')) ∧
    (k < s'.pos → ∃ r a, snlLoop (truncSt k s) = .error (.truncated r a)) := by
  intro m
  induction m with
  | zero =>
    intro s hm v s' k h hk
    have hz : s.limit = 0 := by omega
    have herr : read_u8L s = .error (.truncated 1 0) := by
      unfold read_u8L
      rw [if_pos hz]
    rw [snlLoop_err herr] at h
    exact absurd h (by simp)
  | succ m ih =>
    intro s hm v s' k h hk
    cases hb : read_u8L s with
    | error e =>
      rw [snlLoop_err hb] at h
      exact absurd h (by simp)
    | ok p =>
      obtain ⟨t, s1⟩ := p
      obtain ⟨hl1, hdc, hs1⟩ := read_u8L_ok_inv hb
      have hp1 : s1.pos = s.pos + 1 := by rw [hs1]
      by_cases ht : t = 0
      · subst ht
        cases h2 : read_u16L s1 with
        | error e =>
          rw [snlLoop_hostErr1 hb h2] at h
          exact absurd h (by simp)
        | ok q =>
          obtain ⟨n, s2⟩ := q
          obtain ⟨hl2, hs2⟩ := read_u16L_ok_inv h2
          have hp2 : s2.pos = s1.pos + 2 := by rw [hs2]
          cases h3 : read_exact (set_limit_min s2 n) n with
          | error e =>
            rw [snlLoop_hostErr2 hb h2 h3] at h
            exact absurd h (by simp)
          | ok r =>
            obtain ⟨buf, s3⟩ := r
            obtain ⟨hav3, hbuf, hs3⟩ := read_exact_ok_inv h3
            have hp3 : s3.pos = s2.pos + n := by
              rw [hs3]
              simp [set_limit_min]
            rw [snlLoop_hostStep hb h2 h3] at h
            by_cases hvu : validUtf8 buf
            · rw [if_pos hvu] at h
              simp only [Except.ok.injEq, Prod.mk.injEq] at h
              obtain ⟨hv, hsp⟩ := h
              subst hv hsp
              constructor
              · intro hk2
                have t1 := (read_u8L_trunc hb hk).1 (by omega)
                have t2 := (read_u16L_trunc (k := k) h2 (by omega)).1 (by omega)
                have t3 := (read_exact_trunc (k := k) h3
                  (by simp only [set_limit_min]; omega)).1 (by omega)
                rw [truncSt_set_limit_min] at t3
                rw [snlLoop_hostStep t1 t2 t3, if_pos hvu]
              · intro hk2
                by_cases hc1 : k < s1.pos
                · have t1 := (read_u8L_trunc hb hk).2 (by omega)
                  exact ⟨1, 0, snlLoop_err t1⟩
                · have t1 := (read_u8L_trunc hb hk).1 (by omega)
                  by_cases hc2 : k < s2.pos
                  · obtain ⟨r, a, t2⟩ := (read_u16L_trunc (k := k) h2 (by omega)).2 (by omega)
                    exact ⟨r, a, snlLoop_hostErr1 t1 t2⟩
                  · have t2 := (read_u16L_trunc (k := k) h2 (by omega)).1 (by omega)
                    obtain ⟨r, a, t3⟩ := (read_exact_trunc (k := k) h3
                      (by simp only [set_limit_min]; omega)).2 (by omega)
                    rw [truncSt_set_limit_min] at t3
                    exact ⟨r, a, snlLoop_hostErr2 t1 t2 t3⟩
            · rw [if_neg hvu] at h
              exact absurd h (by simp)
      · cases h2 : skip_vec_u16 s1 with
        | error e =>
          rw [snlLoop_skipErr ht hb h2] at h
          exact absurd h (by simp)
        | ok s2 =>
          obtain ⟨hl2a, hl2b, hd2⟩ := skip_vec_u16_ok_inv h2
          have hp2 := skip_vec_u16_pos_inv h2
          rw [snlLoop_skipStep ht hb h2] at h
          have hm2 : s2.limit ≤ m := by
            rw [hs1] at hl2b
            simp only at hl2b
            omega
          obtain ⟨_, hpos2, _, _, _⟩ := snlLoop_inv h
          constructor
          · intro hk2
            have t1 := (read_u8L_trunc hb hk).1 (by omega)
            have t2 := (skip_vec_u16_trunc (k := k) h2 (by omega)).1 (by omega)
            rw [snlLoop_skipStep ht t1 t2]
            exact (ih s2 hm2 (k := k) h (by omega)).1 hk2
          · intro hk2
            by_cases hc1 : k < s1.pos
            · have t1 := (read_u8L_trunc hb hk).2 (by omega)
              exact ⟨1, 0, snlLoop_err t1⟩
            · have t1 := (read_u8L_trunc hb hk).1 (by omega)
              by_cases hc2 : k < s2.pos
              · obtain ⟨r, a, t2⟩ := (skip_vec_u16_trunc (k := k) h2 (by omega)).2 (by omega)
                exact ⟨r, a, snlLoop_skipErr ht t1 t2⟩
              · have t2 := (skip_vec_u16_trunc (k := k) h2 (by omega)).1 (by omega)
                obtain ⟨r, a, trec⟩ := (ih s2 hm2 (k := k) h (by omega)).2 (by omega)
                refine ⟨r, a, ?_⟩
                rw [snlLoop_skipStep ht t1 t2]
                exact trec

theorem snlLoop_trunc {s : RState} {v : List Nat} {s' : RState} {k : Nat}
    (h : snlLoop s = .ok (v, s')) (hk : s.pos ≤ k) :
    (s'.pos ≤ k → snlLoop (truncSt k s) = .ok (v, truncSt k s')) ∧
    (k < s'.pos → ∃ r a, snlLoop (truncSt k s) = .error (.truncated r a)) :=
  snlLoop_trunc_aux s.limit s (le_refl _) h hk

theorem extLoop_trunc_aux : ∀ (m : Nat) (s : RState), s.limit ≤ m →
    ∀ {v : List Nat} {s' : RState} {k : Nat}, extLoop s = .ok (v, s') → s.pos ≤ k →
    (s'.pos ≤ k → extLoop (truncSt k s) = .ok (v, truncSt k s')) ∧
    (k < s'.pos → ∃ r a, extLoop (truncSt k s) = .error (.truncated r a)) := by
  intro m
  induction m with
  | zero =>
    intro s hm v s' k h hk
    have hz : s.limit = 0 := by omega
    have herr : read_u8L s = .error (.truncated 1 0) := by
      unfold read_u8L
      rw [if_pos hz]
    rw [extLoop_err (read_u16L_err herr)] at h
    exact absurd h (by simp)
  | succ m ih =>
    intro s hm v s' k h hk
    cases hb : read_u16L s with
    | error e =>
      rw [extLoop_err hb] at h
      exact absurd h (by simp)
    | ok p =>
      obtain ⟨t, s1⟩ := p
      obtain ⟨hl1, hs1⟩ := read_u16L_ok_inv hb
      have hp1 : s1.pos = s.pos + 2 := by rw [hs1]
      cases h2 : read_u16L s1 with
      | error e =>
        rw [extLoop_err2 hb h2] at h
        exact absurd h (by simp)
      | ok q =>
        obtain ⟨n, s2⟩ := q
        obtain ⟨hl2, hs2⟩ := read_u16L_ok_inv h2
        have hp2 : s2.pos = s1.pos + 2 := by rw [hs2]
        by_cases ht : t = 0
        · subst ht
          cases h3 : read_u16L (set_limit_min s2 n) with
          | error e =>
            rw [extLoop_sniErr hb h2 h3] at h
            exact absurd h (by simp)
          | ok r =>
            obtain ⟨snlLen, s3⟩ := r
            obtain ⟨hl3, hs3⟩ := read_u16L_ok_inv h3
            have hp3 : s3.pos = s2.pos + 2 := by
              rw [hs3]
              simp [set_limit_min]
            rw [extLoop_sniStep hb h2 h3] at h
            obtain ⟨_, hpos4, _, _, _⟩ := snlLoop_inv h
            simp only [set_limit_min] at hpos4
            constructor
            · intro hk2
              have t1 := (read_u16L_trunc hb hk).1 (by omega)
              have t2 := (read_u16L_trunc (k := k) h2 (by omega)).1 (by omega)
              have t3 := (read_u16L_trunc (k := k) h3
                (by simp only [set_limit_min]; omega)).1 (by omega)
              rw [truncSt_set_limit_min] at t3
              rw [extLoop_sniStep t1 t2 t3]
              have trec := (snlLoop_trunc (k := k) h
                (by simp only [set_limit_min]; omega)).1 hk2
              rw [truncSt_set_limit_min] at trec
              exact trec
            · intro hk2
              by_cases hc1 : k < s1.pos
              · obtain ⟨r, a, t1⟩ := (read_u16L_trunc hb hk).2 (by omega)
                exact ⟨r, a, extLoop_err t1⟩
              · have t1 := (read_u16L_trunc hb hk).1 (by omega)
                by_cases hc2 : k < s2.pos
                · obtain ⟨r, a, t2⟩ := (read_u16L_trunc (k := k) h2 (by omega)).2 (by omega)
                  exact ⟨r, a, extLoop_err2 t1 t2⟩
                · have t2 := (read_u16L_trunc (k := k) h2 (by omega)).1 (by omega)
                  by_cases hc3 : k < s3.pos
                  · obtain ⟨r, a, t3⟩ := (read_u16L_trunc (k := k) h3
                      (by simp only [set_limit_min]; omega)).2 (by omega)
                    rw [truncSt_set_limit_min] at t3
                    exact ⟨r, a, extLoop_sniErr t1 t2 t3⟩
                  · have t3 := (read_u16L_trunc (k := k) h3
                      (by simp only [set_limit_min]; omega)).1 (by omega)
                    rw [truncSt_set_limit_min] at t3
                    obtain ⟨r, a, trec⟩ := (snlLoop_trunc (k := k) h
                      (by simp only [set_limit_min]; omega)).2 (by omega)
                    rw [truncSt_set_limit_min] at trec
                    refine ⟨r, a, ?_⟩
                    rw [extLoop_sniStep t1 t2 t3]
                    exact trec
        · cases h3 : skip s2 n with
          | error e =>
            rw [extLoop_skipErr ht hb h2 h3] at h
            exact absurd h (by simp)
          | ok s3 =>
            obtain ⟨hav3, hs3⟩ := skip_ok_inv h3
            have hp3 : s3.pos = s2.pos + n := by rw [hs3]
            rw [extLoop_skipStep ht hb h2 h3] at h
            have hm3 : s3.limit ≤ m := by
              rw [hs1] at hs2
              simp only at hs2
              rw [hs2] at hs3 hav3
              unfold RState.avail at hav3
              simp only at hav3 hs3
              rw [hs3]
              simp only
              omega
            obtain ⟨_, hpos3, _, _, _⟩ := extLoop_inv h
            constructor
            · intro hk2
              have t1 := (read_u16L_trunc hb hk).1 (by omega)
              have t2 := (read_u16L_trunc (k := k) h2 (by omega)).1 (by omega)
              have t3 := (skip_trunc (k := k) h3 (by omega)).1 (by omega)
              rw [extLoop_skipStep ht t1 t2 t3]
              exact (ih s3 hm3 (k := k) h (by omega)).1 hk2
            · intro hk2
              by_cases hc1 : k < s1.pos
              · obtain ⟨r, a, t1⟩ := (read_u16L_trunc hb hk).2 (by omega)
                exact ⟨r, a, extLoop_err t1⟩
              · have t1 := (read_u16L_trunc hb hk).1 (by omega)
                by_cases hc2 : k < s2.pos
                · obtain ⟨r, a, t2⟩ := (read_u16L_trunc (k := k) h2 (by omega)).2 (by omega)
                  exact ⟨r, a, extLoop_err2 t1 t2⟩
                · have t2 := (read_u16L_trunc (k := k) h2 (by omega)).1 (by omega)
                  by_cases hc3 : k < s3.pos
                  · obtain ⟨r, a, t3⟩ := (skip_trunc (k := k) h3 (by omega)).2 (by omega)
                    exact ⟨r, a, extLoop_skipErr ht t1 t2 t3⟩
                  · have t3 := (skip_trunc (k := k) h3 (by omega)).1 (by omega)
                    obtain ⟨r, a, trec⟩ := (ih s3 hm3 (k := k) h (by omega)).2 (by omega)
                    refine ⟨r, a, ?_⟩
                    rw [extLoop_skipStep ht t1 t2 t3]
                    exact trec

theorem extLoop_trunc {s : RState} {v : List Nat} {s' : RState} {k : Nat}
    (h : extLoop s = .ok (v, s')) (hk : s.pos ≤ k) :
    (s'.pos ≤ k → extLoop (truncSt k s) = .ok (v, truncSt k s')) ∧
    (k < s'.pos → ∃ r a, extLoop (truncSt k s) = .error (.truncated r a)) :=
  extLoop_trunc_aux s.limit s (le_refl _) h hk

theorem afterHeader_inv {s : RState} {v : List Nat} {s' : RState}
    (h : afterHeader s = .ok (v, s')) :
    s'.data = s.data ∧ s.pos ≤ s'.pos ∧ v.length ≤ s'.pos ∧
      (s.data.drop (s'.pos - v.length)).take v.length = v := by
  unfold afterHeader at h
  split at h
  · exact absurd h (by simp)
  · rename_i s1 hf1
    split at h
    · exact absurd h (by simp)
    · rename_i s2 hf2
      split at h
      · exact absurd h (by simp)
      · rename_i s3 hf3
        split at h
        · exact absurd h (by simp)
        · rename_i s4 hf4
          split at h
          · exact absurd h (by simp)
          · rename_i extLen s5 hf5
            obtain ⟨hav1, hs1⟩ := skip_ok_inv hf1
            obtain ⟨hl2a, hl2b, hd2, hp2⟩ := skip_vec_u8_ok_inv hf2
            obtain ⟨hl3a, hl3b, hd3⟩ := skip_vec_u16_ok_inv hf3
            have hp3 := skip_vec_u16_pos_inv hf3
            obtain ⟨hl4a, hl4b, hd4, hp4⟩ := skip_vec_u8_ok_inv hf4
            obtain ⟨hl5, hs5⟩ := read_u16L_ok_inv hf5
            obtain ⟨ha, hbp, hcl, hdl, hsh⟩ := extLoop_inv h
            simp only [set_limit_min] at ha hbp hsh
            have hd1 : s1.data = s.data := by rw [hs1]
            have hp1 : s1.pos = s.pos + 34 := by rw [hs1]
            have hd5 : s5.data = s4.data := by rw [hs5]
            have hp5 : s5.pos = s4.pos + 2 := by rw [hs5]
            have hdall : s'.data = s.data := by
              rw [ha, hd5, hd4, hd3, hd2, hd1]
            refine ⟨hdall, by omega, hdl, ?_⟩
            rw [hd5, hd4, hd3, hd2, hd1] at hsh
            exact hsh

theorem afterHeader_trunc {s : RState} {v : List Nat} {s' : RState} {k : Nat}
    (h : afterHeader s = .ok (v, s')) (hk : s.pos ≤ k) :
    (s'.pos ≤ k → afterHeader (truncSt k s) = .ok (v, truncSt k s')) ∧
    (k < s'.pos → ∃ r a, afterHeader (truncSt k s) = .error (.truncated r a)) := by
  unfold afterHeader at h
  split at h
  · exact absurd h (by simp)
  · rename_i s1 hf1
    split at h
    · exact absurd h (by simp)
    · rename_i s2 hf2
      split at h
      · exact absurd h (by simp)
      · rename_i s3 hf3
        split at h
        · exact absurd h (by simp)
        · rename_i s4 hf4
          split at h
          · exact absurd h (by simp)
          · rename_i extLen s5 hf5
            obtain ⟨hav1, hs1⟩ := skip_ok_inv hf1
            obtain ⟨hl2a, hl2b, hd2, hp2⟩ := skip_vec_u8_ok_inv hf2
            obtain ⟨hl3a, hl3b, hd3⟩ := skip_vec_u16_ok_inv hf3
            have hp3 := skip_vec_u16_pos_inv hf3
            obtain ⟨hl4a, hl4b, hd4, hp4⟩ := skip_vec_u8_ok_inv hf4
            obtain ⟨hl5, hs5⟩ := read_u16L_ok_inv hf5
            have hp1 : s1.pos = s.pos + 34 := by rw [hs1]
            have hp5 : s5.pos = s4.pos + 2 := by rw [hs5]
            obtain ⟨_, hbp, _, _, _⟩ := extLoop_inv h
            simp only [set_limit_min] at hbp
            constructor
            · intro hk2
              have t1 := (skip_trunc (k := k) hf1 hk).1 (by omega)
              have t2 := (skip_vec_u8_trunc (k := k) hf2 (by omega)).1 (by omega)
              have t3 := (skip_vec_u16_trunc (k := k) hf3 (by omega)).1 (by omega)
              have t4 := (skip_vec_u8_trunc (k := k) hf4 (by omega)).1 (by omega)
              have t5 := (read_u16L_trunc (k := k) hf5 (by omega)).1 (by omega)
              have trec := (extLoop_trunc (k := k) h
                (by simp only [set_limit_min]; omega)).1 hk2
              rw [truncSt_set_limit_min] at trec
              simp only [afterHeader, t1, t2, t3, t4, t5]
              exact trec
            · intro hk2
              by_cases hc1 : k < s1.pos
              · obtain ⟨r, a, t1⟩ := (skip_trunc (k := k) hf1 hk).2 (by omega)
                refine ⟨r, a, ?_⟩
                simp only [afterHeader, t1]
              · have t1 := (skip_trunc (k := k) hf1 hk).1 (by omega)
                by_cases hc2 : k < s2.pos
                · obtain ⟨r, a, t2⟩ := (skip_vec_u8_trunc (k := k) hf2 (by omega)).2 (by omega)
                  refine ⟨r, a, ?_⟩
                  simp only [afterHeader, t1, t2]
                · have t2 := (skip_vec_u8_trunc (k := k) hf2 (by omega)).1 (by omega)
                  by_cases hc3 : k < s3.pos
                  · obtain ⟨r, a, t3⟩ :=
                      (skip_vec_u16_trunc (k := k) hf3 (by omega)).2 (by omega)
                    refine ⟨r, a, ?_⟩
                    simp only [afterHeader, t1, t2, t3]
                  · have t3 := (skip_vec_u16_trunc (k := k) hf3 (by omega)).1 (by omega)
                    by_cases hc4 : k < s4.pos
                    · obtain ⟨r, a, t4⟩ :=
                        (skip_vec_u8_trunc (k := k) hf4 (by omega)).2 (by omega)
                      refine ⟨r, a, ?_⟩
                      simp only [afterHeader, t1, t2, t3, t4]
                    · have t4 := (skip_vec_u8_trunc (k := k) hf4 (by omega)).1 (by omega)
                      by_cases hc5 : k < s5.pos
                      · obtain ⟨r, a, t5⟩ :=
                          (read_u16L_trunc (k := k) hf5 (by omega)).2 (by omega)
                        refine ⟨r, a, ?_⟩
                        simp only [afterHeader, t1, t2, t3, t4, t5]
                      · have t5 := (read_u16L_trunc (k := k) hf5 (by omega)).1 (by omega)
                        obtain ⟨r, a, trec⟩ := (extLoop_trunc (k := k) h
                          (by simp only [set_limit_min]; omega)).2 (by omega)
                        rw [truncSt_set_limit_min] at trec
                        refine ⟨r, a, ?_⟩
                        simp only [afterHeader, t1, t2, t3, t4, t5]
                        exact trec

theorem read_u24_short {l : List Nat} (h : l.length < 3) :
    read_u24 l = .error (.truncated 3 l.length) := by
  unfold read_u24
  split <;> first
  | rfl
  | (simp at h; omega)

theorem runExtract_inv {data v : List Nat} {s' : RState}
    (h : runExtract data = .ok (v, s')) :
    s'.data = data ∧ 4 ≤ s'.pos ∧ v.length ≤ s'.pos ∧
      (data.drop (s'.pos - v.length)).take v.length = v := by
  unfold runExtract at h
  split at h
  · exact absurd h (by simp)
  · rename_i typ rest1 hr8
    split at h
    · exact absurd h (by simp)
    · split at h
      · exact absurd h (by simp)
      · rename_i len rest2 h24
        obtain ⟨ha, hbp, hcl, hsh⟩ := afterHeader_inv h
        exact ⟨ha, hbp, hcl, hsh⟩

theorem runExtract_trunc {data v : List Nat} {s' : RState}
    (h : runExtract data = .ok (v, s')) :
    (∀ k, s'.pos ≤ k → runExtract (data.take k) = .ok (v, truncSt k s')) ∧
    (∀ k, k < s'.pos → ∃ r a, runExtract (data.take k) = .error (.truncated r a)) := by
  have hinv := runExtract_inv h
  unfold runExtract at h
  split at h
  · exact absurd h (by simp)
  · rename_i typ rest1 hr8
    split at h
    · exact absurd h (by simp)
    · rename_i ht
      split at h
      · exact absurd h (by simp)
      · rename_i len rest2 h24
        have htyp : typ = 1 := by omega
        subst htyp
        have hdata : data = 1 :: rest1 := by
          unfold read_u8raw at hr8
          split at hr8
          · exact absurd hr8 (by simp)
          · simp only [Except.ok.injEq, Prod.mk.injEq] at hr8
            obtain ⟨hx1, hx2⟩ := hr8
            rw [hx1, hx2]
        have hpos4 : 4 ≤ s'.pos := hinv.2.1
        unfold read_u24 at h24
        split at h24
        · rename_i b0 b1 b2 rest3 hdr
          simp only [Except.ok.injEq, Prod.mk.injEq] at h24
          have hlen : len = b0 * 65536 + b1 * 256 + b2 := h24.1.symm
          constructor
          · intro k hk2
            have htake : data.take k = 1 :: rest1.take (k - 1) := by
              rw [hdata]
              have hx : k = (k - 1) + 1 := by omega
              rw [hx]
              simp
            have e1 : read_u8raw (data.take k) = .ok (1, rest1.take (k - 1)) := by
              rw [htake]
              rfl
            have hdrops : (data.take k).drop 1 = (data.drop 1).take (k - 1) := by
              rw [List.drop_take]
            have e2 : read_u24 ((data.take k).drop 1) =
                .ok (len, rest3.take (k - 4)) := by
              rw [hdrops, hdr]
              have hx : k - 1 = (k - 4) + 1 + 1 + 1 := by omega
              rw [hx]
              simp only [List.take_succ_cons]
              unfold read_u24
              rw [hlen]
            simp only [runExtract, e1, e2]
            rw [if_neg (by omega)]
            exact (afterHeader_trunc (k := k) h (by show 4 ≤ k; omega)).1 hk2
          · intro k hklt
            by_cases hk0 : k = 0
            · subst hk0
              refine ⟨1, 0, ?_⟩
              simp [runExtract, read_u8raw]
            · have htake : data.take k = 1 :: rest1.take (k - 1) := by
                rw [hdata]
                have hx : k = (k - 1) + 1 := by omega
                rw [hx]
                simp
              have e1 : read_u8raw (data.take k) = .ok (1, rest1.take (k - 1)) := by
                rw [htake]
                rfl
              have hdrops : (data.take k).drop 1 = (data.drop 1).take (k - 1) := by
                rw [List.drop_take]
              by_cases hk4 : k < 4
              · have hlq : ((data.take k).drop 1).length = k - 1 := by
                  rw [hdrops, hdr]
                  simp only [List.length_take]
                  simp
                  omega
                refine ⟨3, k - 1, ?_⟩
                have e2 := read_u24_short (l := (data.take k).drop 1) (by omega)
                rw [hlq] at e2
                simp only [runExtract, e1, e2]
                rw [if_neg (by omega)]
              · have e2 : read_u24 ((data.take k).drop 1) =
                    .ok (len, rest3.take (k - 4)) := by
                  rw [hdrops, hdr]
                  have hx : k - 1 = (k - 4) + 1 + 1 + 1 := by omega
                  rw [hx]
                  simp only [List.take_succ_cons]
                  unfold read_u24
                  rw [hlen]
                obtain ⟨r, a, trec⟩ :=
                  (afterHeader_trunc (k := k) h (by show 4 ≤ k; omega)).2 (by omega)
                refine ⟨r, a, ?_⟩
                simp only [runExtract, e1, e2]
                rw [if_neg (by omega)]
                exact trec
        · exact absurd h24 (by simp)

/-! ### Wrappers at the public interface -/

theorem skip_short {s : RState} {n : Nat} (h : s.avail < n) :
    skip s n = .error (.truncated n s.avail) := by
  unfold skip
  rw [if_pos (by omega)]
  rw [Nat.min_eq_right (by omega)]

/-- The public function on a well-formed ClientHello: the host name when
its bytes are valid UTF-8, the UTF-8 decode error otherwise. -/
theorem read_sni_encode_eq (ch : ClientHello) (hwf : ch.WF) :
    read_sni_host_name_from_client_hello ch.encode =
      if validUtf8 ch.hostName then .ok ch.hostName else .error .invalidUtf8 := by
  obtain ⟨h1, h2, h3, h4, h5, h6, h7, h8, h9, h10⟩ := hwf
  simp only [ClientHello.extBytes] at h9
  simp only [ClientHello.body, ClientHello.extBytes] at h10
  have hrw := runExtract_wf ch.versionRandom ch.sessionId ch.cipherSuites
    ch.compression ch.hostName ch.trailing ch.extsBefore ch.entriesBefore
    h1 h2 h3 h4 h5 h6 h7 h8 h9 h10
  unfold read_sni_host_name_from_client_hello
  simp only [ClientHello.encode, ClientHello.body, ClientHello.extBytes]
  rw [hrw]
  by_cases hv : validUtf8 ch.hostName
  · rw [if_pos hv, if_pos hv]
  · rw [if_neg hv, if_neg hv]

/-- The concrete ClientHello of the specification scenario: empty
session ID, cipher suites and compression methods, one SNI extension
holding one host-name entry with bytes "abc". -/
def ch7 : ClientHello := ⟨List.replicate 34 0, [], [], [], [], [], [97, 98, 99], []⟩

theorem ch7_wf : ch7.WF := by
  unfold ClientHello.WF ch7
  refine ⟨by simp, by simp, by simp, by simp, by simp, by simp, by simp, ?_, ?_, ?_⟩ <;> decide

theorem runExtract_ch7 : runExtract ch7.encode = .ok ([97, 98, 99], ⟨ch7.encode, 56, 0⟩) := by
  have h := runExtract_wf (List.replicate 34 0) [] [] [] [97, 98, 99] [] [] []
    (by simp) (by simp) (by simp) (by simp) (by simp) (by simp)
    (by simp) (by decide) (by decide) (by decide)
  rw [show ch7.encode = encodeMsg (bodyOf (List.replicate 34 0) [] [] []
    (encodeExts [] ++ encodeSniExtOf (encodeSNL [] [97, 98, 99]))) [] from rfl]
  rw [h, if_pos (by decide)]
  rw [show 4 + (bodyOf (List.replicate 34 0) [] [] []
    (encodeExts [] ++ encodeSniExtOf (encodeSNL [] [97, 98, 99]))).length = 56 from by decide]

/-! ### The claims -/

/-- Claim C1: for every well-formed ClientHello byte sequence holding
exactly one SNI host-name entry, extraction returns exactly that host
name, no matter how many non-SNI extensions precede the SNI extension or
how many non-host-name entries precede the host-name entry; every
non-matching extension or entry is skipped, not treated as absence of a
name. -/
theorem sni_returns_unique_host_name (ch : ClientHello) (hwf : ch.WF)
    (hv : validUtf8 ch.hostName = true) :
    read_sni_host_name_from_client_hello ch.encode = .ok ch.hostName := by
  rw [read_sni_encode_eq ch hwf, if_pos hv]

/-- A well-formed ClientHello with one non-SNI extension before the SNI
extension and one non-host-name entry before the host-name entry. -/
def chW : ClientHello :=
  ⟨List.replicate 34 0, [7], [1, 2], [0], [(5, [1, 2])], [(1, [3])], [97, 98, 99], [9]⟩

theorem sni_returns_unique_host_name_witness :
    read_sni_host_name_from_client_hello chW.encode = .ok [97, 98, 99] :=
  sni_returns_unique_host_name chW (by unfold ClientHello.WF chW; decide) (by decide)

/-- Claim C2: the byte budget never increases during extraction: each
budget-narrowing step takes the minimum of the current limit and the
newly declared length (so the narrowed limit is at most both), and every
primitive and loop leaves the limit at most what it was. -/
theorem limit_never_increases :
    (∀ (s : RState) (n : Nat),
      (set_limit_min s n).limit ≤ s.limit ∧ (set_limit_min s n).limit ≤ n) ∧
    (∀ (s : RState) (b : Nat) (s1 : RState),
      read_u8L s = .ok (b, s1) → s1.limit ≤ s.limit) ∧
    (∀ (s : RState) (v : Nat) (s1 : RState),
      read_u16L s = .ok (v, s1) → s1.limit ≤ s.limit) ∧
    (∀ (s : RState) (n : Nat) (s1 : RState),
      skip s n = .ok s1 → s1.limit ≤ s.limit) ∧
    (∀ (s s1 : RState), skip_vec_u8 s = .ok s1 → s1.limit ≤ s.limit) ∧
    (∀ (s s1 : RState), skip_vec_u16 s = .ok s1 → s1.limit ≤ s.limit) ∧
    (∀ (s : RState) (n : Nat) (buf : List Nat) (s1 : RState),
      read_exact s n = .ok (buf, s1) → s1.limit ≤ s.limit) ∧
    (∀ (s : RState) (v : List Nat) (s1 : RState),
      snlLoop s = .ok (v, s1) → s1.limit ≤ s.limit) ∧
    (∀ (s : RState) (v : List Nat) (s1 : RState),
      extLoop s = .ok (v, s1) → s1.limit ≤ s.limit) := by
  refine ⟨fun s n => ⟨Nat.min_le_left _ _, Nat.min_le_right _ _⟩,
    fun s b s1 h => ?_, fun s v s1 h => ?_, fun s n s1 h => ?_,
    fun s s1 h => ?_, fun s s1 h => ?_, fun s n buf s1 h => ?_,
    fun s v s1 h => (snlLoop_inv h).2.2.1, fun s v s1 h => (extLoop_inv h).2.2.1⟩
  · obtain ⟨_, _, hs⟩ := read_u8L_ok_inv h
    rw [hs]
    simp
  · obtain ⟨_, hs⟩ := read_u16L_ok_inv h
    rw [hs]
    simp
  · obtain ⟨_, hs⟩ := skip_ok_inv h
    rw [hs]
    simp
  · have := (skip_vec_u8_ok_inv h).2.1
    omega
  · have := (skip_vec_u16_ok_inv h).2.1
    omega
  · obtain ⟨_, _, hs⟩ := read_exact_ok_inv h
    rw [hs]
    simp

theorem limit_never_increases_witness :
    (set_limit_min ⟨[], 0, 5⟩ 3).limit ≤ 5 ∧
      (⟨[0, 0], 2, 1⟩ : RState).limit ≤ (⟨[0, 0], 0, 3⟩ : RState).limit :=
  ⟨(limit_never_increases.1 ⟨[], 0, 5⟩ 3).1,
    limit_never_increases.2.2.2.1 ⟨[0, 0], 0, 3⟩ 2 ⟨[0, 0], 2, 1⟩ rfl⟩

/-- Claim C3: truncated input fails with a truncation error and never
yields a short or garbage name: `skip n` errors whenever the stream or
budget supplies fewer than `n` bytes, and whenever extraction succeeds
on a stream, running it on any prefix shorter than the consumed portion
fails with a truncation error. -/
theorem truncated_inputs_fail :
    (∀ (s : RState) (n : Nat), s.avail < n →
      skip s n = .error (.truncated n s.avail)) ∧
    (∀ (data v : List Nat) (s' : RState), runExtract data = .ok (v, s') →
      ∀ k, k < s'.pos →
        ∃ r a, runExtract (data.take k) = .error (.truncated r a)) :=
  ⟨fun _ _ h => skip_short h,
    fun _ _ _ h k hk => (runExtract_trunc h).2 k hk⟩

theorem truncated_inputs_fail_witness :
    ∃ r a, runExtract (ch7.encode.take 30) = .error (.truncated r a) :=
  truncated_inputs_fail.2 ch7.encode [97, 98, 99] ⟨ch7.encode, 56, 0⟩
    runExtract_ch7 30 (by decide)

/-- Claim C4: an input whose first byte is not 1 fails with the
wrong-message-type error naming the observed byte and the expected value
1; the remainder of the stream is arbitrary and never examined. -/
theorem wrong_message_type_fails (b : Nat) (rest : List Nat) (hb : b ≠ 1) :
    read_sni_host_name_from_client_hello (b :: rest) = .error (.wrongType b 1) := by
  unfold read_sni_host_name_from_client_hello runExtract
  have e1 : read_u8raw (b :: rest) = .ok (b, rest) := rfl
  simp only [e1]
  rw [if_pos hb]

theorem wrong_message_type_fails_witness :
    read_sni_host_name_from_client_hello [2] = .error (.wrongType 2 1) :=
  wrong_message_type_fails 2 [] (by decide)

/-- Claim C5: if the extensions block holds only non-SNI extensions, or
the SNI extension's ServerNameList holds only non-host-name entries, the
exhausted budget makes the next read fail with an end-of-data truncation
error; no host name is fabricated. -/
theorem exhausted_without_match_fails :
    (∀ (vr sid cs comp tr : List Nat) (exts : List (Nat × List Nat)),
      vr.length = 34 → sid.length < 256 → cs.length < 65536 → comp.length < 256 →
      (∀ e ∈ exts, e.1 ≠ 0 ∧ e.1 < 65536 ∧ e.2.length < 65536) →
      (encodeExts exts).length < 65536 →
      (bodyOf vr sid cs comp (encodeExts exts)).length < 16777216 →
      read_sni_host_name_from_client_hello
        (encodeMsg (bodyOf vr sid cs comp (encodeExts exts)) tr) =
        .error (.truncated 1 0)) ∧
    (∀ (vr sid cs comp tr : List Nat) (exts entries : List (Nat × List Nat)),
      vr.length = 34 → sid.length < 256 → cs.length < 65536 → comp.length < 256 →
      (∀ e ∈ exts, e.1 ≠ 0 ∧ e.1 < 65536 ∧ e.2.length < 65536) →
      (∀ e ∈ entries, e.1 ≠ 0 ∧ e.1 < 256 ∧ e.2.length < 65536) →
      (encodeEntries entries).length + 2 < 65536 →
      (encodeExts exts ++ encodeSniExtOf (encodeEntries entries)).length < 65536 →
      (bodyOf vr sid cs comp
        (encodeExts exts ++ encodeSniExtOf (encodeEntries entries))).length < 16777216 →
      read_sni_host_name_from_client_hello
        (encodeMsg (bodyOf vr sid cs comp
          (encodeExts exts ++ encodeSniExtOf (encodeEntries entries))) tr) =
        .error (.truncated 1 0)) := by
  constructor
  · intro vr sid cs comp tr exts h1 h2 h3 h4 h5 h6 h7
    unfold read_sni_host_name_from_client_hello
    rw [runExtract_noSni h1 h2 h3 h4 h5 h6 h7]
  · intro vr sid cs comp tr exts entries h1 h2 h3 h4 h5 h6 h7 h8 h9
    unfold read_sni_host_name_from_client_hello
    rw [runExtract_noHostName h1 h2 h3 h4 h5 h6 h7 h8 h9]

theorem exhausted_without_match_fails_witness :
    read_sni_host_name_from_client_hello
      (encodeMsg (bodyOf (List.replicate 34 0) [] [] [] (encodeExts [(5, [1, 2])])) []) =
      .error (.truncated 1 0) :=
  exhausted_without_match_fails.1 (List.replicate 34 0) [] [] [] [] [(5, [1, 2])]
    (by simp) (by simp) (by simp) (by simp) (by decide) (by decide) (by decide)

/-- Claim C6: when the located host-name bytes are not valid UTF-8 (for
instance a lone continuation byte 0x80), extraction fails with the
invalid-encoding error wrapping the UTF-8 decode failure, never
returning a lossy or substituted string. -/
theorem invalid_utf8_host_name_fails (ch : ClientHello) (hwf : ch.WF)
    (hv : validUtf8 ch.hostName = false) :
    read_sni_host_name_from_client_hello ch.encode = .error .invalidUtf8 := by
  rw [read_sni_encode_eq ch hwf, if_neg (by simp [hv])]

/-- A well-formed ClientHello whose host-name bytes are the lone UTF-8
continuation byte 0x80. -/
def chX : ClientHello := ⟨List.replicate 34 0, [], [], [], [], [], [128], []⟩

theorem invalid_utf8_host_name_fails_witness :
    read_sni_host_name_from_client_hello chX.encode = .error .invalidUtf8 :=
  invalid_utf8_host_name_fails chX (by unfold ClientHello.WF chX; decide) (by decide)

/-- Claim C7: on the concrete scenario input (type 01, length 52, 34
zero bytes, empty session ID, cipher suites and compression methods,
one SNI extension whose ServerNameList holds one type-0 entry of length
3 with bytes "abc"), extraction returns "abc". -/
theorem concrete_scenario_returns_abc :
    read_sni_host_name_from_client_hello
      ([1, 0, 0, 52] ++ List.replicate 34 0 ++ [0] ++ [0, 0] ++ [0] ++ [0, 12] ++
        [0, 0, 0, 8, 0, 6, 0, 0, 3, 97, 98, 99]) = .ok [97, 98, 99] := by
  have he : ([1, 0, 0, 52] ++ List.replicate 34 0 ++ [0] ++ [0, 0] ++ [0] ++ [0, 12] ++
      [0, 0, 0, 8, 0, 6, 0, 0, 3, 97, 98, 99] : List Nat) = ch7.encode := by decide
  rw [he, read_sni_encode_eq ch7 ch7_wf, if_pos (by decide)]
  rfl

/-- Claim C8: `read_u24` consumes exactly 3 bytes, combining them
big-endian (first byte most significant), and fails with a truncation
error when fewer than 3 bytes remain. -/
theorem read_u24_three_bytes_big_endian :
    (∀ (b0 b1 b2 : Nat) (rest : List Nat),
      read_u24 (b0 :: b1 :: b2 :: rest) = .ok (b0 * 65536 + b1 * 256 + b2, rest)) ∧
    (∀ l : List Nat, l.length < 3 → read_u24 l = .error (.truncated 3 l.length)) :=
  ⟨fun _ _ _ _ => rfl, fun _ h => read_u24_short h⟩

theorem read_u24_three_bytes_big_endian_witness :
    read_u24 [5] = .error (.truncated 3 1) :=
  read_u24_three_bytes_big_endian.2 [5] (by decide)

/-- Claim C9: on every successful extraction the read position ends
exactly at the end of the returned host-name bytes (the last
`name.length` consumed bytes are the name), and every byte after that
position is left unread: the run on the stream cut at that position
succeeds identically. -/
theorem success_stops_at_name_end (data v : List Nat) (s' : RState)
    (h : runExtract data = .ok (v, s')) :
    (v.length ≤ s'.pos ∧ (data.drop (s'.pos - v.length)).take v.length = v) ∧
      runExtract (data.take s'.pos) = .ok (v, truncSt s'.pos s') := by
  obtain ⟨_, _, h3, h4⟩ := runExtract_inv h
  exact ⟨⟨h3, h4⟩, (runExtract_trunc h).1 s'.pos (le_refl _)⟩

theorem success_stops_at_name_end_witness :
    ([97, 98, 99].length ≤ 56 ∧ (ch7.encode.drop 53).take 3 = [97, 98, 99]) ∧
      runExtract (ch7.encode.take 56) = .ok ([97, 98, 99], ⟨ch7.encode.take 56, 56, 0⟩) :=
  success_stops_at_name_end ch7.encode [97, 98, 99] ⟨ch7.encode, 56, 0⟩ runExtract_ch7

/-- Claim C10: a matched host-name entry with declared length 0 yields
the empty string as a success value, not an error and not absence of
SNI. -/
theorem empty_host_name_is_success (ch : ClientHello) (hwf : ch.WF)
    (he : ch.hostName = []) :
    read_sni_host_name_from_client_hello ch.encode = .ok [] := by
  have hq := read_sni_encode_eq ch hwf
  rw [he] at hq
  rw [hq, if_pos (by decide)]

/-- A well-formed ClientHello whose host-name entry declares length 0. -/
def chY : ClientHello := ⟨List.replicate 34 0, [], [], [], [(1, [5])], [], [], [2, 3]⟩

theorem empty_host_name_is_success_witness :
    read_sni_host_name_from_client_hello chY.encode = .ok [] :=
  empty_host_name_is_success chY (by unfold ClientHello.WF chY; decide) rfl
